import Mathlib

/-!
Verification of the Sokoban solver core (sokoban_state.py, move_generation.py,
deadlock_detection.py, heuristics.py, astar_solver.py, dfs_solver.py).

The Python code is shallowly embedded: grids are lists of rows of characters,
positions are integer pairs (x = column, y = row), box and goal collections
are finite sets (the source uses frozensets), and the parent back-pointer of
a search state is represented structurally, by an inductive type whose
second constructor carries the generating parent.  Fallible operations
return Option or Except.  Loops whose termination the source obtains from
run-time bounds (the breadth-first searches and the two solver drivers) are
embedded with an explicit fuel parameter; the fuel chosen for the
breadth-first searches (number of grid cells plus two) strictly exceeds the
number of dequeue steps the source can perform, because the visited-set
guard lets every in-grid position be enqueued at most once, so the fuel
cut-off branch is unreachable and the embedding computes the same result as
the source loop.
-/

/-- A board position, `(x, y)` with `x` the column and `y` the row. -/
abbrev Pos := Int × Int

/-- `MoveGenerator.DIRECTIONS`: `(dx, dy, label)` for up, down, left, right. -/
def DIRECTIONS : List (Int × Int × Char) :=
  [(0, -1, 'U'), (0, 1, 'D'), (-1, 0, 'L'), (1, 0, 'R')]

/-- The `direction_map` dictionary used by `_calculate_player_path_for_push`
and `apply_single_move`; `none` models a `KeyError` on an unknown label. -/
def directionMap (c : Char) : Option (Int × Int) :=
  if c = 'U' then some (0, -1)
  else if c = 'D' then some (0, 1)
  else if c = 'L' then some (-1, 0)
  else if c = 'R' then some (1, 0)
  else none

/-- Grid lookup: `matrix[y][x]` guarded by the bounds checks
`0 <= y < len(matrix) and 0 <= x < len(matrix[y])` that accompany every
subscript in the source; `none` means out of bounds. -/
def cell (m : List (List Char)) (x y : Int) : Option Char :=
  if y < 0 then none
  else
    match m.get? y.toNat with
    | none => none
    | some row => if x < 0 then none else row.get? x.toNat

/-- `State.is_wall` / `DeadlockDetector._is_wall`: a wall character, with any
out-of-bounds coordinate counting as a wall.  (The detector memoizes this in
`walls_cache`; the cache is observationally transparent.) -/
def isWall (m : List (List Char)) (x y : Int) : Bool :=
  match cell m x y with
  | none => true
  | some c => c = '#'

/-- Number of cells of the grid (rows may have different lengths). -/
def totalCells (m : List (List Char)) : Nat := (m.map List.length).sum

/-- A Sokoban search state (`State` / `AStarState` / `DFSState`).  The base
class stores the grid, the player position, frozensets of box and goal
positions, and `parent` / `move_action` fields that are `None` on a freshly
constructed state and are filled in by `MoveGenerator._apply_push_move`.
The two shapes are captured by two constructors: `root` is a state with
`parent is None`, `push` is a state produced from a parent by a push, whose
`move_action` is `action`.  (The A*-only scalars `g_cost`/`h_cost`/`f_cost`
are not stored in the state; the A* driver embedding threads them alongside
the state in its priority queue, which is the only place they are read.) -/
inductive SokoState where
  | root (matrix : List (List Char)) (player : Pos)
      (boxes : Finset Pos) (goals : Finset Pos)
  | push (matrix : List (List Char)) (player : Pos)
      (boxes : Finset Pos) (goals : Finset Pos)
      (action : Char) (parent : SokoState)
deriving DecidableEq

namespace SokoState

def matrix : SokoState → List (List Char)
  | root m _ _ _ => m
  | push m _ _ _ _ _ => m

def player : SokoState → Pos
  | root _ p _ _ => p
  | push _ p _ _ _ _ => p

def boxes : SokoState → Finset Pos
  | root _ _ b _ => b
  | push _ _ b _ _ _ => b

def goals : SokoState → Finset Pos
  | root _ _ _ g => g
  | push _ _ _ g _ _ => g

def parent : SokoState → Option SokoState
  | root _ _ _ _ => none
  | push _ _ _ _ _ p => some p

def moveAction : SokoState → Option Char
  | root _ _ _ _ => none
  | push _ _ _ _ a _ => some a

end SokoState

/-- `State.is_goal_state`: all boxes are on goal positions (set equality). -/
def isGoalState (s : SokoState) : Bool := s.boxes = s.goals

/-- `State.get_state_key`: the identity key used by the closed sets. -/
def stateKey (s : SokoState) : Pos × Finset Pos := (s.player, s.boxes)

/-- `State.get_boxes_not_on_goals`. -/
def boxesNotOnGoals (s : SokoState) : Finset Pos := s.boxes \ s.goals

/-- `State.get_goals_without_boxes`. -/
def goalsWithoutBoxes (s : SokoState) : Finset Pos := s.goals \ s.boxes

/-- Lexicographic order on positions, used to enumerate a frozenset.  Python
set iteration order is unspecified; the embedding fixes one concrete order.
No theorem below depends on which order is chosen. -/
def posLe (p q : Pos) : Prop := p.1 < q.1 ∨ (p.1 = q.1 ∧ p.2 ≤ q.2)

instance : DecidableRel posLe := fun p q => by
  unfold posLe
  infer_instance

instance : IsTrans Pos posLe := by
  constructor
  intro a b c hab hbc
  rcases hab with h1 | ⟨h1, h2⟩ <;> rcases hbc with h3 | ⟨h3, h4⟩ <;> unfold posLe <;> omega

instance : IsAntisymm Pos posLe := by
  constructor
  intro ⟨a1, a2⟩ ⟨b1, b2⟩ hab hba
  rcases hab with h1 | ⟨h1, h2⟩ <;> rcases hba with h3 | ⟨h3, h4⟩ <;>
    simp only [Prod.mk.injEq] <;> omega

instance : IsTotal Pos posLe := by
  constructor
  intro ⟨a1, a2⟩ ⟨b1, b2⟩
  unfold posLe
  omega

/-- Enumerate a frozenset of positions as a duplicate-free list
(`for p in s` / `list(s)` in the source), in the `posLe` order.  Insertion
sort is used because it is structurally recursive, so concrete instances
evaluate by kernel reduction. -/
def setToList (s : Finset Pos) : List Pos :=
  Quot.liftOn s.val (fun l => l.insertionSort posLe) (fun l1 l2 (h : List.Perm l1 l2) =>
    List.eq_of_perm_of_sorted
      ((List.perm_insertionSort posLe l1).trans
        (h.trans (List.perm_insertionSort posLe l2).symm))
      (List.sorted_insertionSort posLe l1)
      (List.sorted_insertionSort posLe l2))

/-! ## Move generation (`move_generation.py`) -/

/-- One neighbor step of the flood-fill loop body of
`MoveGenerator._get_player_reachable_positions`: skip the neighbor if it is
already visited, out of bounds, a wall, or a box; otherwise enqueue it and
mark it visited.  The accumulator is `(queue, visited)`. -/
def expandReach (m : List (List Char)) (boxes : Finset Pos) (cur : Pos)
    (acc : List Pos × Finset Pos) (d : Int × Int × Char) : List Pos × Finset Pos :=
  let np : Pos := (cur.1 + d.1, cur.2 + d.2.1)
  if np ∈ acc.2 then acc
  else
    match cell m np.1 np.2 with
    | none => acc
    | some c =>
      if c = '#' then acc
      else if np ∈ boxes then acc
      else (acc.1 ++ [np], insert np acc.2)

/-- The `while queue:` loop of `_get_player_reachable_positions`: dequeue,
add to `reachable`, expand the four directions.  `fuel` bounds the number of
dequeues; since each in-grid position is enqueued at most once (the visited
guard), a fuel of `totalCells + 2` is never exhausted and the loop ends by
emptying the queue, as in the source. -/
def bfsReachAux (m : List (List Char)) (boxes : Finset Pos) :
    Nat → List Pos → Finset Pos → Finset Pos → Finset Pos
  | 0, _, _, reachable => reachable
  | _ + 1, [], _, reachable => reachable
  | fuel + 1, cur :: queue, visited, reachable =>
    let reachable2 := insert cur reachable
    let qv := DIRECTIONS.foldl (expandReach m boxes cur) (queue, visited)
    bfsReachAux m boxes fuel qv.1 qv.2 reachable2

/-- `MoveGenerator._get_player_reachable_positions`.  (The fuel is written
`2 + totalCells` so that it does not reduce to a successor on an abstract
grid; its value is the `totalCells + 2` bound discussed above.) -/
def reachablePositions (s : SokoState) : Finset Pos :=
  bfsReachAux s.matrix s.boxes (2 + totalCells s.matrix) [s.player] {s.player} ∅

/-- `MoveGenerator._is_valid_box_position`: in bounds, not a wall, not
occupied by another box. -/
def isValidBoxPosition (m : List (List Char)) (boxes : Finset Pos) (pos : Pos) : Bool :=
  match cell m pos.1 pos.2 with
  | none => false
  | some c => if c = '#' then false else if pos ∈ boxes then false else true

/-- `MoveGenerator._generate_push_moves` (with `_is_valid_push` inlined: the
box destination must be a valid box position and the pushing tile must be
player-reachable).  Produces `(box_pos, direction, new_box_pos,
player_push_pos)` tuples. -/
def generatePushMoves (s : SokoState) : List (Pos × Char × Pos × Pos) :=
  let playerReachable := reachablePositions s
  (setToList s.boxes).flatMap (fun b =>
    DIRECTIONS.filterMap (fun d =>
      let newBox : Pos := (b.1 + d.1, b.2 + d.2.1)
      let pushPos : Pos := (b.1 - d.1, b.2 - d.2.1)
      if isValidBoxPosition s.matrix s.boxes newBox = true ∧ pushPos ∈ playerReachable then
        some (b, d.2.2, newBox, pushPos)
      else none))

/-- `MoveGenerator._apply_push_move`: the successor has the player on the
box's old tile, the box set with the pushed box relocated, the same goals,
`parent` the generating state and `move_action` the push label. -/
def applyPushMove (s : SokoState) (move : Pos × Char × Pos × Pos) : SokoState :=
  SokoState.push s.matrix move.1 (insert move.2.2.1 (s.boxes.erase move.1)) s.goals
    move.2.1 s

/-- `MoveGenerator.get_successor_states`.  (`_apply_push_move` never returns
`None`, so the `if successor:` filter of the source is the identity.) -/
def getSuccessorStates (s : SokoState) : List SokoState :=
  (generatePushMoves s).map (applyPushMove s)

/-- `MoveGenerator.get_solution_path`: walk the parent chain collecting
`move_action` labels and reverse. -/
def getSolutionPath : SokoState → List Char
  | .root _ _ _ _ => []
  | .push _ _ _ _ a p => getSolutionPath p ++ [a]

/-- `MoveGenerator.get_detailed_solution`: the forward `(move, state)` list,
starting with `(None, root)`. -/
def getDetailedSolution : SokoState → List (Option Char × SokoState)
  | .root m p b g => [(none, .root m p b g)]
  | .push m p b g a par => getDetailedSolution par ++ [(some a, .push m p b g a par)]

/-- One neighbor step of `MoveGenerator._find_player_path`: same skip
conditions as the flood fill; an enqueued neighbor carries the extended
path `path + [direction]`. -/
def expandPath (m : List (List Char)) (boxes : Finset Pos) (cur : Pos) (path : List Char)
    (acc : List (Pos × List Char) × Finset Pos) (d : Int × Int × Char) :
    List (Pos × List Char) × Finset Pos :=
  let np : Pos := (cur.1 + d.1, cur.2 + d.2.1)
  if np ∈ acc.2 then acc
  else
    match cell m np.1 np.2 with
    | none => acc
    | some c =>
      if c = '#' then acc
      else if np ∈ boxes then acc
      else (acc.1 ++ [(np, path ++ [d.2.2])], insert np acc.2)

/-- The `while queue:` loop of `_find_player_path`: dequeue `(pos, path)`,
return `path` when `pos` is the target, else expand; `[]` when the queue
empties ("no path found").  Fueled exactly like `bfsReachAux`. -/
def bfsPathAux (m : List (List Char)) (boxes : Finset Pos) (target : Pos) :
    Nat → List (Pos × List Char) → Finset Pos → List Char
  | 0, _, _ => []
  | _ + 1, [], _ => []
  | fuel + 1, (cur, path) :: queue, visited =>
    if cur = target then path
    else
      let qv := DIRECTIONS.foldl (expandPath m boxes cur path) (queue, visited)
      bfsPathAux m boxes target fuel qv.1 qv.2

/-- `MoveGenerator._find_player_path` on the given state's grid and boxes. -/
def findPlayerPath (st : SokoState) (start target : Pos) : List Char :=
  if start = target then []
  else bfsPathAux st.matrix st.boxes target (2 + totalCells st.matrix) [(start, [])] {start}

/-- `MoveGenerator._calculate_player_path_for_push`.  When no moved box can
be identified the source silently returns `[push_direction]` (the
`# Fallback.` branch).  The final catch-all arm is unreachable: it covers
the empty-list case excluded by the emptiness test just above, and an
unknown label, on which the source would raise `KeyError`; every call site
passes a label drawn from `DIRECTIONS`. -/
def calculatePlayerPathForPush (fromState toState : SokoState) (pushDirection : Char) :
    List Char :=
  let movedFrom := fromState.boxes \ toState.boxes
  let movedTo := toState.boxes \ fromState.boxes
  if movedFrom = ∅ ∨ movedTo = ∅ then [pushDirection]
  else
    match setToList movedFrom, directionMap pushDirection with
    | boxFrom :: _, some d =>
      let pushPos : Pos := (boxFrom.1 - d.1, boxFrom.2 - d.2)
      findPlayerPath fromState fromState.player pushPos ++ [pushDirection]
    | _, _ => []

/-- `MoveGenerator.get_detailed_solution_with_player_moves`: concatenate,
over the consecutive pairs of the push chain (skipping the root entry), the
player positioning path followed by the push itself. -/
def getDetailedSolutionWithPlayerMoves (goalState : SokoState) : List Char :=
  ((getDetailedSolution goalState).drop 1).foldl
    (fun acc entry =>
      match entry.2.parent, entry.1 with
      | some parentState, some a => acc ++ calculatePlayerPathForPush parentState entry.2 a
      | _, _ => acc)
    []

/-- `apply_single_move` (module level, used for animation/replay): move the
player one tile, pushing a box if one occupies the destination; `none`
models the `return None` branches (invalid direction, wall, blocked box). -/
def applySingleMove (state : SokoState) (dir : Char) : Option SokoState :=
  match directionMap dir with
  | none => none
  | some d =>
    let np : Pos := (state.player.1 + d.1, state.player.2 + d.2)
    match cell state.matrix np.1 np.2 with
    | none => none
    | some c =>
      if c = '#' then none
      else if np ∈ state.boxes then
        let nb : Pos := (np.1 + d.1, np.2 + d.2)
        match cell state.matrix nb.1 nb.2 with
        | none => none
        | some c2 =>
          if c2 = '#' then none
          else if nb ∈ state.boxes then none
          else some (.root state.matrix np (insert nb (state.boxes.erase np)) state.goals)
      else some (.root state.matrix np state.boxes state.goals)

/-- Replay a list of single-step moves with `apply_single_move`. -/
def applyMoves (s : SokoState) : List Char → Option SokoState
  | [] => some s
  | c :: cs =>
    match applySingleMove s c with
    | none => none
    | some s2 => applyMoves s2 cs

/-! ## Deadlock detection (`deadlock_detection.py`) -/

/-- The four corner patterns shared verbatim by
`DeadlockDetector._is_simple_deadlock` and
`SokobanHeuristics._is_corner_deadlock`: two adjacent orthogonal walls. -/
def cornerPattern (m : List (List Char)) (x y : Int) : Bool :=
  (isWall m (x - 1) y && isWall m x (y - 1)) ||
  (isWall m (x + 1) y && isWall m x (y - 1)) ||
  (isWall m (x - 1) y && isWall m x (y + 1)) ||
  (isWall m (x + 1) y && isWall m x (y + 1))

/-- `DeadlockDetector._is_simple_deadlock`: a box in a wall corner, with
boxes on goals exempt. -/
def isSimpleDeadlock (m : List (List Char)) (goals : Finset Pos) (bp : Pos) : Bool :=
  if bp ∈ goals then false
  else cornerPattern m bp.1 bp.2

/-- The direction list of `_is_freeze_deadlock`: down, up, right, left. -/
def freezeDirections : List (Int × Int) := [(0, 1), (0, -1), (1, 0), (-1, 0)]

/-- `DeadlockDetector._is_freeze_deadlock`: true iff no box of `allBoxes`
has a direction whose destination tile and opposite tile are both neither
wall nor a member of `allBoxes`.  (The source computes `can_move` with two
nested loops and breaks; that is an existential over boxes and
directions.) -/
def isFreezeDeadlock (m : List (List Char)) (allBoxes : Finset Pos) : Bool :=
  let canMove := (setToList allBoxes).any (fun bp =>
    freezeDirections.any (fun d =>
      !(isWall m (bp.1 + d.1) (bp.2 + d.2)) &&
      !(decide ((bp.1 + d.1, bp.2 + d.2) ∈ allBoxes)) &&
      !(isWall m (bp.1 - d.1) (bp.2 - d.2)) &&
      !(decide ((bp.1 - d.1, bp.2 - d.2) ∈ allBoxes))))
  !canMove

/-- `DeadlockDetector.is_deadlock`: never a deadlock on a goal state; then
the corner test over the boxes not on goals, then the freeze test applied
to that same set of boxes not on goals. -/
def isDeadlock (s : SokoState) : Bool :=
  if isGoalState s then false
  else
    let boxes := boxesNotOnGoals s
    if (setToList boxes).any (isSimpleDeadlock s.matrix s.goals) then true
    else if isFreezeDeadlock s.matrix boxes then true
    else false

/-- Modelled from the spec, for comparison with the source-derived
`isFreezeDeadlock`: section 4.3 words the freeze rule as "a state is frozen
if no box (on or off goal) has at least one axis along which both the
destination tile and the tile behind it (relative to a push direction) are
simultaneously free of walls and free of other boxes" — ranging over every
box of the state and treating every box as an obstacle. -/
def freezeDeadlockSpec (s : SokoState) : Bool :=
  !((setToList s.boxes).any (fun bp =>
    freezeDirections.any (fun d =>
      !(isWall s.matrix (bp.1 + d.1) (bp.2 + d.2)) &&
      !(decide ((bp.1 + d.1, bp.2 + d.2) ∈ s.boxes)) &&
      !(isWall s.matrix (bp.1 - d.1) (bp.2 - d.2)) &&
      !(decide ((bp.1 - d.1, bp.2 - d.2) ∈ s.boxes)))))

/-! ## Heuristics (`heuristics.py`) -/

/-- `SokobanHeuristics._manhattan_distance`. -/
def manhattan (p q : Pos) : Int := |p.1 - q.1| + |p.2 - q.2|

/-- Minimum of a list of integers (`min(...)` over a nonempty sequence, or
the `float('inf')`-sentinel fold of `_min_cost_assignment`).  On `[]` the
source either raises `ValueError` (`min` of an empty sequence) or keeps the
sentinel and returns 0; the theorems below only reach this case where the
source returns 0. -/
def minListInt : List Int → Int
  | [] => 0
  | c :: cs => cs.foldl min c

/-- `SokobanHeuristics._simple_manhattan_heuristic`: sum over the boxes not
on goals of the distance to the nearest unfilled goal. -/
def simpleManhattanHeuristic (s : SokoState) : Int :=
  if isGoalState s then 0
  else
    (setToList (boxesNotOnGoals s)).foldl
      (fun total b =>
        total + minListInt ((setToList (goalsWithoutBoxes s)).map (manhattan b)))
      0

/-- All ways of extracting one element from a list, paired with the
remaining elements. -/
def pick : List Pos → List (Pos × List Pos)
  | [] => []
  | x :: xs => (x, xs) :: (pick xs).map (fun p => (p.1, x :: p.2))

/-- `itertools.permutations(l, k)`: all length-`k` permutations of distinct
elements of `l`.  (The enumeration order differs from itertools; only the
minimum over the enumeration is ever consumed.) -/
def kpermutations : List Pos → Nat → List (List Pos)
  | _, 0 => [[]]
  | l, k + 1 => (pick l).flatMap (fun xr => (kpermutations xr.2 k).map (fun q => xr.1 :: q))

/-- `SokobanHeuristics._min_cost_assignment`: minimum over all `min_boxes`-
permutations of the goals of the summed Manhattan distances to the first
`min_boxes` boxes; 0 when a side is empty or no permutation exists. -/
def minCostAssignment (boxes goals : List Pos) : Int :=
  if boxes = [] ∨ goals = [] then 0
  else
    let minBoxes := min boxes.length goals.length
    minListInt ((kpermutations goals minBoxes).map (fun perm =>
      (List.range minBoxes).foldl
        (fun c i => c + manhattan (boxes.getD i (0, 0)) (perm.getD i (0, 0))) 0))

/-- `SokobanHeuristics._hungarian_assignment_heuristic`: exact assignment
when both sides have at most 4 elements, nearest-goal sum otherwise. -/
def hungarianAssignmentHeuristic (s : SokoState) : Int :=
  if isGoalState s then 0
  else
    let boxes := setToList (boxesNotOnGoals s)
    let goals := setToList (goalsWithoutBoxes s)
    if boxes = [] ∨ goals = [] then 0
    else if boxes.length ≤ 4 ∧ goals.length ≤ 4 then minCostAssignment boxes goals
    else simpleManhattanHeuristic s

/-- `SokobanHeuristics._is_corner_deadlock`: same corner patterns as the
detector, with goal tiles exempt. -/
def isCornerDeadlockH (s : SokoState) (x y : Int) : Bool :=
  if (x, y) ∈ s.goals then false
  else cornerPattern s.matrix x y

/-- `SokobanHeuristics._is_edge_deadlock`: against a wall (above/below or
left/right) such that the corresponding row (resp. column) holds no goal at
all; goal tiles exempt. -/
def isEdgeDeadlockH (s : SokoState) (x y : Int) : Bool :=
  if (x, y) ∈ s.goals then false
  else
    let againstRowWall := isWall s.matrix x (y - 1) || isWall s.matrix x (y + 1)
    let rowNoGoals := againstRowWall && !(decide (∃ g ∈ s.goals, g.2 = y))
    let againstColWall := isWall s.matrix (x - 1) y || isWall s.matrix (x + 1) y
    let colNoGoals := againstColWall && !(decide (∃ g ∈ s.goals, g.1 = x))
    (againstRowWall || againstColWall) && (rowNoGoals || colNoGoals)

/-- `SokobanHeuristics._calculate_deadlock_penalty`: +100 per off-goal box
in a corner pattern, else +10 per off-goal box in an edge pattern. -/
def calculateDeadlockPenalty (s : SokoState) : Int :=
  (setToList (boxesNotOnGoals s)).foldl
    (fun pen b =>
      if isCornerDeadlockH s b.1 b.2 then pen + 100
      else if isEdgeDeadlockH s b.1 b.2 then pen + 10
      else pen)
    0

/-- `SokobanHeuristics.our_heuristic`: assignment cost + player positioning
cost + deadlock-risk penalty; 0 on goal states. -/
def ourHeuristic (s : SokoState) : Int :=
  if isGoalState s then 0
  else
    let baseCost := hungarianAssignmentHeuristic s
    let boxes := boxesNotOnGoals s
    let playerCost : Int :=
      if boxes = ∅ then 0
      else max 0 (minListInt ((setToList boxes).map (manhattan s.player)) - 1)
    baseCost + playerCost + calculateDeadlockPenalty s

/-! ## State construction (`sokoban_state.py`, `create_initial_state`) -/

/-- Accumulator of the scan: located player (last player tile wins, as in
the source, which overwrites `player_pos`), box positions, goal positions. -/
abbrev ScanCore := Option Pos × Finset Pos × Finset Pos

/-- Scan one row of the raw grid at row index `y`, starting at column `x`:
record `@`/`+` as the player, `$`/`*` as boxes, `.`/`+`/`*` as goals, and
emit the cleaned row, where every recognized symbol becomes floor and any
other character (wall or floor) is kept. -/
def scanRow (y : Int) : Int → List Char → ScanCore → ScanCore × List Char
  | _, [], core => (core, [])
  | x, c :: cs, core =>
    let step : ScanCore × Char :=
      if c = '@' then ((some (x, y), core.2.1, core.2.2), ' ')
      else if c = '+' then ((some (x, y), core.2.1, insert (x, y) core.2.2), ' ')
      else if c = '$' then ((core.1, insert (x, y) core.2.1, core.2.2), ' ')
      else if c = '*' then ((core.1, insert (x, y) core.2.1, insert (x, y) core.2.2), ' ')
      else if c = '.' then ((core.1, core.2.1, insert (x, y) core.2.2), ' ')
      else (core, c)
    let rest := scanRow y (x + 1) cs step.1
    (rest.1, step.2 :: rest.2)

/-- Scan all rows starting at row index `y`. -/
def scanMatrix : Int → List (List Char) → ScanCore → ScanCore × List (List Char)
  | _, [], core => (core, [])
  | y, row :: rows, core =>
    let r := scanRow y 0 row core
    let rest := scanMatrix (y + 1) rows r.1
    (rest.1, r.2 :: rest.2)

/-- `create_initial_state`: extract player, boxes and goals from the raw
character grid and produce the cleaned grid; `none` models the
`ValueError("No player position found in the level")` raised when no player
tile exists. -/
def createInitialState (matrix : List (List Char)) : Option SokoState :=
  match (scanMatrix 0 matrix (none, ∅, ∅)).1.1 with
  | none => none
  | some p =>
    some (.root (scanMatrix 0 matrix (none, ∅, ∅)).2 p
      (scanMatrix 0 matrix (none, ∅, ∅)).1.2.1 (scanMatrix 0 matrix (none, ∅, ∅)).1.2.2)

/-! ## Search drivers (`astar_solver.py`, `dfs_solver.py`)

`SearchResult` keeps the fields the theorems below speak about; the
wall-clock and memory statistics of the source (`time_taken`,
`memory_used_mb`) are external measurements and are not modeled.  The
wall-clock bound, which the source checks once per loop iteration, is
modeled by the loop fuel: running out of fuel produces the timeout result.
The error strings abbreviate the formatted messages of the source. -/

structure SearchResult where
  success : Bool
  solution : List Char
  statesExplored : Nat
  finalState : Option SokoState
  errorMessage : Option String
deriving DecidableEq

/-- Identity key type of the closed sets and of the `state_costs` map. -/
abbrev StateKey := Pos × Finset Pos

/-- The `while stack:` loop of `DFSSolver.solve`: pop the top of the stack,
skip closed keys, test the goal, and push the successors that survive the
deadlock filter and are not closed.  Pushing the successors in order and
popping from the top reverses them, as `list.append`/`list.pop` do. -/
def dfsLoop (maxStates : Nat) (useDD : Bool) :
    Nat → List SokoState → Finset StateKey → Nat → SearchResult
  | 0, _, _, explored =>
    ⟨false, [], explored, none, some "Timeout"⟩
  | _ + 1, [], _, explored =>
    ⟨false, [], explored, none, some "No solution exists (stack exhausted)"⟩
  | fuel + 1, cur :: rest, closed, explored =>
    if maxStates ≤ explored then
      ⟨false, [], explored, none, some "State limit reached"⟩
    else if stateKey cur ∈ closed then
      dfsLoop maxStates useDD fuel rest closed explored
    else
      let closed2 := insert (stateKey cur) closed
      let explored2 := explored + 1
      if isGoalState cur then
        ⟨true, getSolutionPath cur, explored2, some cur, none⟩
      else
        let succs := (getSuccessorStates cur).filter (fun t =>
          !(useDD && isDeadlock t) && !(decide (stateKey t ∈ closed2)))
        dfsLoop maxStates useDD fuel (succs.foldl (fun st t => t :: st) rest) closed2 explored2

/-- `DFSSolver.solve`: immediate success on an initial goal state, else the
stack loop seeded with the initial state. -/
def dfsSolve (maxStates : Nat) (useDD : Bool) (fuel : Nat) (initial : SokoState) :
    SearchResult :=
  if isGoalState initial then ⟨true, [], 1, some initial, none⟩
  else dfsLoop maxStates useDD fuel [initial] ∅ 0

/-- An open-list entry of the A* driver: `(f_cost, tiebreaker, g_cost,
state)`.  The source stores 3-tuples `(f_cost, tiebreaker, state)` in a
heap and keeps `g_cost` as an attribute of the state; the embedding threads
`g_cost` alongside, since it is the only cost attribute read back. -/
abbrev OpenEntry := Int × Nat × Int × SokoState

/-- Heap order on `(f_cost, tiebreaker)`.  Tiebreakers are pairwise
distinct (0 for the initial entry, then the strictly increasing
`states_generated` counter), so the heap never compares states. -/
def entryLt (a b : OpenEntry) : Bool :=
  decide (a.1 < b.1) || (decide (a.1 = b.1) && decide (a.2.1 < b.2.1))

/-- The `while open_list:` loop of `AStarSolver.solve`.  `heapq.heappop`
removes the least entry under the `(f, tiebreaker)` order, modeled by a
fold selecting the minimum followed by `List.erase`.  On reaching a goal
state the source evaluates
`MoveGenerator(current_state).get_detailed_solution_moves(current_state)`;
`MoveGenerator` has no such attribute (`get_detailed_solution_moves` is a
module-level function of `move_generation.py`), so the call raises
`AttributeError`, modeled by the `Except.error` return. -/
def astarLoop (maxStates : Nat) (useDD : Bool) :
    Nat → List OpenEntry → Finset StateKey → List (StateKey × Int) → Nat → Nat →
    Except String SearchResult
  | 0, _, _, _, explored, _ =>
    .ok ⟨false, [], explored, none, some "Timeout"⟩
  | _ + 1, [], _, _, explored, _ =>
    .ok ⟨false, [], explored, none, some "No solution exists (open list exhausted)"⟩
  | fuel + 1, e :: es, closed, costs, explored, generated =>
    if maxStates ≤ explored then
      .ok ⟨false, [], explored, none, some "State limit reached"⟩
    else
      let entry := es.foldl (fun best x => if entryLt x best then x else best) e
      let openRest := (e :: es).erase entry
      let g := entry.2.2.1
      let st := entry.2.2.2
      if stateKey st ∈ closed then
        astarLoop maxStates useDD fuel openRest closed costs explored generated
      else
        let closed2 := insert (stateKey st) closed
        let explored2 := explored + 1
        if isGoalState st then
          .error "AttributeError: MoveGenerator object has no attribute get_detailed_solution_moves"
        else
          let acc := (getSuccessorStates st).foldl
            (fun (a : List OpenEntry × List (StateKey × Int) × Nat) t =>
              let generated2 := a.2.2 + 1
              if useDD && isDeadlock t then (a.1, a.2.1, generated2)
              else
                let g2 := g + 1
                let f2 := g2 + ourHeuristic t
                let k2 := stateKey t
                if (a.2.1.lookup k2).elim false (fun cOld => decide (cOld ≤ g2)) then
                  (a.1, a.2.1, generated2)
                else if k2 ∈ closed2 then (a.1, a.2.1, generated2)
                else (a.1 ++ [(f2, generated2, g2, t)], (k2, g2) :: a.2.1, generated2))
            (openRest, costs, generated)
          astarLoop maxStates useDD fuel acc.1 closed2 acc.2.1 explored2 acc.2.2

/-- `AStarSolver.solve`: immediate success on an initial goal state, else
the heap loop seeded with `(0 + h, 0, initial)` and
`state_costs = {initial: 0}`.  The `state_costs` dictionary is an
association list whose lookup returns the most recent binding, so consing a
new pair models `state_costs[key] = g`. -/
def astarSolve (maxStates : Nat) (useDD : Bool) (fuel : Nat) (initial : SokoState) :
    Except String SearchResult :=
  if isGoalState initial then .ok ⟨true, [], 1, some initial, none⟩
  else
    astarLoop maxStates useDD fuel [(0 + ourHeuristic initial, 0, 0, initial)] ∅
      [(stateKey initial, 0)] 0 0


/-- Modelled from the spec for comparison with `minCostAssignment`: the
"minimum-cost one-to-one matching between boxes-off-goal and goals-unfilled
under Manhattan distance" of section 4.4, expressed independently as the
minimum over all full permutations of the goal list (for lists of equal
length, pairing the boxes in order against every permutation of the goals
ranges over exactly the bijections between the two sets). -/
def minMatchingCost (boxes goals : List Pos) : Int :=
  minListInt (goals.permutations.map (fun perm =>
    (List.range boxes.length).foldl
      (fun c i => c + manhattan (boxes.getD i (0, 0)) (perm.getD i (0, 0))) 0))

/-- The per-character normalization `create_initial_state` applies when
building the clean grid: every recognized symbol becomes floor, anything
else (wall or floor) is kept. -/
def normChar (c : Char) : Char :=
  if c = '@' then ' ' else if c = '+' then ' ' else if c = '$' then ' '
  else if c = '*' then ' ' else if c = '.' then ' ' else c

/-- The raw (unnormalized) demo level `#####` / `#@$.#` / `#####`. -/
def rawDemo : List (List Char) :=
  [['#', '#', '#', '#', '#'],
   ['#', '@', '$', '.', '#'],
   ['#', '#', '#', '#', '#']]

/-! ## Concrete levels used as witnesses and counterexamples -/

/-- A one-box corridor: `#####` / `#@$.#` / `#####` (already normalized). -/
def demoMatrix : List (List Char) :=
  [['#', '#', '#', '#', '#'],
   ['#', ' ', ' ', ' ', '#'],
   ['#', '#', '#', '#', '#']]

/-- Player at (1,1), box at (2,1), goal at (3,1). -/
def demoState : SokoState := .root demoMatrix (1, 1) {(2, 1)} {(3, 1)}

/-- The single legal successor of `demoState`: the box pushed right. -/
def demoSucc : SokoState := .push demoMatrix (2, 1) {(3, 1)} {(3, 1)} 'R' demoState

/-- The demo corridor with the box already resting on the goal. -/
def solvedState : SokoState := .root demoMatrix (1, 1) {(3, 1)} {(3, 1)}


/-- A wide corridor with five boxes (1..5) and five goals (6..10), used to
exercise the greedy branch of the assignment heuristic. -/
def bigMatrix : List (List Char) :=
  [['#', '#', '#', '#', '#', '#', '#', '#', '#', '#', '#', '#', '#'],
   ['#', ' ', ' ', ' ', ' ', ' ', ' ', ' ', ' ', ' ', ' ', ' ', '#'],
   ['#', '#', '#', '#', '#', '#', '#', '#', '#', '#', '#', '#', '#']]

def bigState : SokoState :=
  .root bigMatrix (11, 1) {(1, 1), (2, 1), (3, 1), (4, 1), (5, 1)}
    {(6, 1), (7, 1), (8, 1), (9, 1), (10, 1)}

/-! ## Relational definitions used by the replay theorem -/

/-- `t` was produced from `s` by a chain of zero or more successor-state
pushes — exactly the states a search driver can hand to
`get_solution_path` / `get_detailed_solution_with_player_moves` when seeded
with `s`. -/
inductive ReachedBy : SokoState → SokoState → Prop where
  | refl (s : SokoState) : ReachedBy s s
  | step {s p t : SokoState} : ReachedBy s p → t ∈ getSuccessorStates p → ReachedBy s t

/-- Every box stands on an in-bounds, non-wall tile.  `create_initial_state`
only records boxes at grid cells it scans, and pushes only relocate boxes to
tiles validated by `_is_valid_box_position`, so every state a solver touches
satisfies this. -/
def boxesOk (m : List (List Char)) (boxes : Finset Pos) : Prop :=
  ∀ b ∈ boxes, isWall m b.1 b.2 = false

/-- Replaying `path` with `apply_single_move` from a parentless state with
player `start` walks the player to `target` without disturbing any box. -/
def WalksTo (m : List (List Char)) (boxes goals : Finset Pos)
    (start target : Pos) (path : List Char) : Prop :=
  applyMoves (.root m start boxes goals) path = some (.root m target boxes goals)

/-! ## Basic lemmas -/

lemma reachablePositions_def (s : SokoState) :
    reachablePositions s =
      bfsReachAux s.matrix s.boxes (2 + totalCells s.matrix) [s.player] {s.player} ∅ := rfl

lemma findPlayerPath_def (st : SokoState) (start target : Pos) :
    findPlayerPath st start target =
      if start = target then []
      else bfsPathAux st.matrix st.boxes target (2 + totalCells st.matrix)
        [(start, [])] {start} := rfl

lemma mem_setToList {s : Finset Pos} {p : Pos} : p ∈ setToList s ↔ p ∈ s := by
  rcases s with ⟨sval, nd⟩
  induction sval using Quot.inductionOn with
  | h l =>
    show p ∈ l.insertionSort posLe ↔ _
    rw [(List.perm_insertionSort posLe l).mem_iff]
    rfl

lemma length_setToList (s : Finset Pos) : (setToList s).length = s.card := by
  rcases s with ⟨sval, nd⟩
  induction sval using Quot.inductionOn with
  | h l =>
    show (l.insertionSort posLe).length = _
    rw [(List.perm_insertionSort posLe l).length_eq]
    rfl

lemma nodup_setToList (s : Finset Pos) : (setToList s).Nodup := by
  rcases s with ⟨sval, nd⟩
  induction sval using Quot.inductionOn with
  | h l =>
    exact (List.perm_insertionSort posLe l).nodup_iff.mpr nd

lemma isValidBoxPosition_iff (m : List (List Char)) (boxes : Finset Pos) (pos : Pos) :
    isValidBoxPosition m boxes pos = true ↔
      (cell m pos.1 pos.2).isSome ∧ cell m pos.1 pos.2 ≠ some '#' ∧ pos ∉ boxes := by
  unfold isValidBoxPosition
  cases h : cell m pos.1 pos.2 with
  | none => simp
  | some c =>
    by_cases hc : c = '#'
    · subst hc; simp
    · by_cases hb : pos ∈ boxes <;> simp [hc, hb]

lemma dirs_nonzero : ∀ d ∈ DIRECTIONS, ¬(d.1 = 0 ∧ d.2.1 = 0) := by decide

/-- Membership characterization of `getSuccessorStates`: exactly the legal
pushes, each producing the `push`-constructed successor. -/
lemma mem_successors_iff (s t : SokoState) :
    t ∈ getSuccessorStates s ↔
      ∃ b ∈ s.boxes, ∃ d ∈ DIRECTIONS,
        isValidBoxPosition s.matrix s.boxes (b.1 + d.1, b.2 + d.2.1) = true ∧
        (b.1 - d.1, b.2 - d.2.1) ∈ reachablePositions s ∧
        t = SokoState.push s.matrix b
              (insert (b.1 + d.1, b.2 + d.2.1) (s.boxes.erase b)) s.goals d.2.2 s := by
  unfold getSuccessorStates generatePushMoves
  simp only [List.mem_map, List.mem_flatMap, List.mem_filterMap, mem_setToList]
  constructor
  · rintro ⟨mv, ⟨b, hb, d, hd, hmv⟩, ht⟩
    refine ⟨b, hb, d, hd, ?_⟩
    split at hmv
    · rename_i hcond
      cases hmv
      exact ⟨hcond.1, hcond.2, by simp [← ht, applyPushMove]⟩
    · cases hmv
  · rintro ⟨b, hb, d, hd, hvalid, hreach, ht⟩
    refine ⟨(b, d.2.2, (b.1 + d.1, b.2 + d.2.1), (b.1 - d.1, b.2 - d.2.1)), ⟨b, hb, d, hd, ?_⟩, ?_⟩
    · rw [if_pos ⟨hvalid, hreach⟩]
    · simp [applyPushMove, ht]

lemma sdiff_after_push (B : Finset Pos) (b nb : Pos) (hb : b ∈ B) (hnb : nb ∉ B)
    (hne : nb ≠ b) :
    B \ insert nb (B.erase b) = {b} ∧ insert nb (B.erase b) \ B = {nb} := by
  constructor
  · ext x
    simp only [Finset.mem_sdiff, Finset.mem_insert, Finset.mem_erase, Finset.mem_singleton,
      not_or, not_and]
    constructor
    · rintro ⟨hxB, hxnb, hx⟩
      by_contra hxb
      exact absurd hxB (hx hxb)
    · rintro rfl
      refine ⟨hb, fun h => hnb (h ▸ hb), fun h _ => absurd rfl h⟩
  · ext x
    simp only [Finset.mem_sdiff, Finset.mem_insert, Finset.mem_erase, Finset.mem_singleton]
    constructor
    · rintro ⟨hx | ⟨_, hxB⟩, hxnB⟩
      · exact hx
      · exact absurd hxB hxnB
    · rintro rfl
      exact ⟨Or.inl rfl, hnb⟩

/-- C1: for every state, the successor enumeration returns exactly the
states obtained by one legal box push — for a box `b` pushed in direction
`d`, the push is legal iff the destination `b + d` is in bounds, not a wall
and not another box, and the standing tile `b - d` lies in the
player-reachable region computed by the flood fill; each successor has
player `b`, the box set with `b` replaced by `b + d`, unchanged goals,
parent the generating state and the direction's label as action, and
exactly one box position differs from the parent's box set. -/
theorem successor_enumeration_exact (s : SokoState) :
    (∀ t, t ∈ getSuccessorStates s ↔
      ∃ b ∈ s.boxes, ∃ d ∈ DIRECTIONS,
        (cell s.matrix (b.1 + d.1) (b.2 + d.2.1)).isSome ∧
        cell s.matrix (b.1 + d.1) (b.2 + d.2.1) ≠ some '#' ∧
        (b.1 + d.1, b.2 + d.2.1) ∉ s.boxes ∧
        (b.1 - d.1, b.2 - d.2.1) ∈ reachablePositions s ∧
        t = SokoState.push s.matrix b
              (insert (b.1 + d.1, b.2 + d.2.1) (s.boxes.erase b)) s.goals d.2.2 s) ∧
    (∀ t, t ∈ getSuccessorStates s →
      t.goals = s.goals ∧ t.parent = some s ∧ t.player ∈ s.boxes ∧
      (s.boxes \ t.boxes).card = 1 ∧ (t.boxes \ s.boxes).card = 1) := by
  constructor
  · intro t
    rw [mem_successors_iff]
    constructor
    · rintro ⟨b, hb, d, hd, hvalid, hreach, ht⟩
      rcases (isValidBoxPosition_iff _ _ _).mp hvalid with ⟨h1, h2, h3⟩
      exact ⟨b, hb, d, hd, h1, h2, h3, hreach, ht⟩
    · rintro ⟨b, hb, d, hd, h1, h2, h3, hreach, ht⟩
      exact ⟨b, hb, d, hd, (isValidBoxPosition_iff _ _ _).mpr ⟨h1, h2, h3⟩, hreach, ht⟩
  · intro t ht
    rcases (mem_successors_iff s t).mp ht with ⟨b, hb, d, hd, hvalid, _, rfl⟩
    have hnb : (b.1 + d.1, b.2 + d.2.1) ∉ s.boxes :=
      ((isValidBoxPosition_iff _ _ _).mp hvalid).2.2
    have hne : (b.1 + d.1, b.2 + d.2.1) ≠ b := by
      intro h
      have h1 : b.1 + d.1 = b.1 := congrArg Prod.fst h
      have h2 : b.2 + d.2.1 = b.2 := congrArg Prod.snd h
      exact dirs_nonzero d hd ⟨by omega, by omega⟩
    have hsd := sdiff_after_push s.boxes b _ hb hnb hne
    refine ⟨rfl, rfl, hb, ?_, ?_⟩
    · show (s.boxes \ insert (b.1 + d.1, b.2 + d.2.1) (s.boxes.erase b)).card = 1
      rw [hsd.1, Finset.card_singleton]
    · show (insert (b.1 + d.1, b.2 + d.2.1) (s.boxes.erase b) \ s.boxes).card = 1
      rw [hsd.2, Finset.card_singleton]

/-! ## Deadlock theorems (C5, C3) -/

/-- C5: for every state, a box not on a goal tile sitting between two
adjacent orthogonal walls (any of the four corner orientations) makes the
deadlock detector report deadlock; and the corner test returns false for
any box on a goal tile, regardless of the surrounding walls. -/
theorem corner_box_reports_deadlock (s : SokoState) :
    (∀ b ∈ s.boxes, b ∉ s.goals → cornerPattern s.matrix b.1 b.2 = true →
      isDeadlock s = true) ∧
    (∀ (m : List (List Char)) (goals : Finset Pos) (b : Pos), b ∈ goals →
      isSimpleDeadlock m goals b = false) := by
  constructor
  · intro b hb hbg hc
    have hgoal : ¬s.boxes = s.goals := fun h => hbg (h ▸ hb)
    have hmem : b ∈ setToList (boxesNotOnGoals s) :=
      mem_setToList.mpr (Finset.mem_sdiff.mpr ⟨hb, hbg⟩)
    have hsd : isSimpleDeadlock s.matrix s.goals b = true := by
      unfold isSimpleDeadlock
      rw [if_neg hbg, hc]
    unfold isDeadlock
    rw [if_neg (by simpa [isGoalState] using hgoal)]
    rw [if_pos (List.any_eq_true.mpr ⟨b, hmem, hsd⟩)]
  · intro m goals b hbg
    unfold isSimpleDeadlock
    rw [if_pos hbg]

/-- A corner level: box at (1,1) in the top-left corner, off goal. -/
def cornerState : SokoState := .root demoMatrix (2, 1) {(1, 1)} {(3, 1)}

theorem corner_box_reports_deadlock_witness :
    isDeadlock cornerState = true ∧ isSimpleDeadlock demoMatrix {(1, 1)} (1, 1) = false :=
  ⟨(corner_box_reports_deadlock cornerState).1 (1, 1) (by decide) (by decide) (by decide),
   (corner_box_reports_deadlock cornerState).2 demoMatrix {(1, 1)} (1, 1) (by decide)⟩

/-- C3 amended: the freeze check that `is_deadlock` performs receives only
the boxes not on goals; it declares the state frozen iff no box *not on a
goal* has an axis whose both sides are free of walls and free of *other
boxes not on goals* — boxes resting on goals are neither tested for
mobility nor treated as obstacles. -/
theorem freeze_check_ranges_over_off_goal_boxes (s : SokoState) :
    isFreezeDeadlock s.matrix (boxesNotOnGoals s) = true ↔
      ¬∃ b ∈ boxesNotOnGoals s, ∃ d ∈ freezeDirections,
        isWall s.matrix (b.1 + d.1) (b.2 + d.2) = false ∧
        (b.1 + d.1, b.2 + d.2) ∉ boxesNotOnGoals s ∧
        isWall s.matrix (b.1 - d.1) (b.2 - d.2) = false ∧
        (b.1 - d.1, b.2 - d.2) ∉ boxesNotOnGoals s := by
  unfold isFreezeDeadlock
  rw [Bool.not_eq_true']
  rw [← Bool.not_eq_true]
  simp only [List.any_eq_true, mem_setToList, Bool.and_eq_true, Bool.not_eq_true',
    decide_eq_false_iff_not]
  constructor
  · rintro h ⟨b, hb, d, hd, h1, h2, h3, h4⟩
    exact h ⟨b, hb, d, hd, ⟨⟨h1, h2⟩, h3⟩, h4⟩
  · rintro h ⟨b, hb, d, hd, ⟨⟨h1, h2⟩, h3⟩, h4⟩
    exact h ⟨b, hb, d, hd, h1, h2, h3, h4⟩

theorem freeze_check_ranges_over_off_goal_boxes_witness :
    isFreezeDeadlock cornerState.matrix (boxesNotOnGoals cornerState) = true :=
  (freeze_check_ranges_over_off_goal_boxes cornerState).mpr (by decide)

/-- The corridor `#####` / `# $*#`-style state: an off-goal box at (2,1)
whose only open axis is blocked by an on-goal box at (3,1); goals at (1,1)
and (3,1), player at (1,1). -/
def cexFreezeState : SokoState := .root demoMatrix (1, 1) {(2, 1), (3, 1)} {(1, 1), (3, 1)}

/-- C3 counterexample: the source freeze check (fed, as in `is_deadlock`,
only the boxes not on goals) finds the off-goal box mobile because the
on-goal box is invisible to it, and the detector reports no deadlock, while
the spec's wording — every box tested, every box an obstacle — declares
this state frozen. -/
theorem freeze_claim_counterexample :
    isFreezeDeadlock cexFreezeState.matrix (boxesNotOnGoals cexFreezeState) = false ∧
    freezeDeadlockSpec cexFreezeState = true ∧
    isDeadlock cexFreezeState = false := by decide

/-! ## Path-reconstruction fallback (C4) -/

/-- C4: when no moved box can be identified between two adjacent states,
`_calculate_player_path_for_push` silently returns the bare push label
(`return [push_direction]  # Fallback.`) instead of surfacing an internal
consistency error: the embedding of the function is total, with no error
outcome, and at two identical states it produces the fallback label. -/
theorem fallback_label_emitted :
    calculatePlayerPathForPush demoState demoState 'U' = ['U'] := by decide

/-! ## State construction lemmas (C8) -/

lemma scanRow_clean (y : Int) : ∀ (cs : List Char) (x : Int) (core : ScanCore),
    (scanRow y x cs core).2 = cs.map normChar := by
  intro cs
  induction cs with
  | nil => intro x core; rfl
  | cons c cs ih =>
    intro x core
    rw [scanRow]
    simp only [List.map_cons]
    rw [ih]
    congr 1
    unfold normChar
    split_ifs <;> rfl

lemma iff_shuffle_hit (A Q E P : Prop) (hP : P) : ((Q ∨ A) ∨ E) ↔ (A ∨ ((P ∧ Q) ∨ E)) := by
  tauto

lemma iff_shuffle_miss (A Q E P : Prop) (hP : ¬P) : (A ∨ E) ↔ (A ∨ ((P ∧ Q) ∨ E)) := by
  tauto

lemma cons_exists_shift (c : Char) (cs : List Char) (P : Char → Prop) (x y : Int) (p : Pos) :
    (∃ j : Nat, ∃ c2, (c :: cs).get? j = some c2 ∧ P c2 ∧ p = (x + j, y)) ↔
      ((P c ∧ p = (x, y)) ∨
        ∃ j : Nat, ∃ c2, cs.get? j = some c2 ∧ P c2 ∧ p = (x + 1 + j, y)) := by
  constructor
  · rintro ⟨j, c2, hget, hP, rfl⟩
    cases j with
    | zero =>
      cases hget
      left
      exact ⟨hP, by simp⟩
    | succ j =>
      right
      refine ⟨j, c2, hget, hP, ?_⟩
      rw [Prod.mk.injEq]
      constructor
      · push_cast
        ring
      · rfl
  · rintro (⟨hP, rfl⟩ | ⟨j, c2, hget, hP, rfl⟩)
    · exact ⟨0, c, rfl, hP, by simp⟩
    · refine ⟨j + 1, c2, hget, hP, ?_⟩
      rw [Prod.mk.injEq]
      constructor
      · push_cast
        ring
      · rfl

lemma scanRow_boxes (y : Int) : ∀ (cs : List Char) (x : Int) (core : ScanCore) (p : Pos),
    p ∈ (scanRow y x cs core).1.2.1 ↔
      p ∈ core.2.1 ∨
        ∃ j : Nat, ∃ c, cs.get? j = some c ∧ (c = '$' ∨ c = '*') ∧ p = (x + j, y) := by
  intro cs
  induction cs with
  | nil =>
    intro x core p
    simp [scanRow]
  | cons c cs ih =>
    intro x core p
    rw [scanRow]
    simp only []
    rw [ih, cons_exists_shift c cs (fun c2 => c2 = '$' ∨ c2 = '*') x y p]
    split_ifs with h1 h2 h3 h4 h5
    · subst h1
      exact iff_shuffle_miss _ _ _ _ (by decide)
    · subst h2
      exact iff_shuffle_miss _ _ _ _ (by decide)
    · subst h3
      rw [Finset.mem_insert]
      exact iff_shuffle_hit _ _ _ _ (by decide)
    · subst h4
      rw [Finset.mem_insert]
      exact iff_shuffle_hit _ _ _ _ (by decide)
    · subst h5
      exact iff_shuffle_miss _ _ _ _ (by decide)
    · exact iff_shuffle_miss _ _ _ _ (by simp [h3, h4])

lemma scanRow_goals (y : Int) : ∀ (cs : List Char) (x : Int) (core : ScanCore) (p : Pos),
    p ∈ (scanRow y x cs core).1.2.2 ↔
      p ∈ core.2.2 ∨
        ∃ j : Nat, ∃ c, cs.get? j = some c ∧ (c = '.' ∨ c = '+' ∨ c = '*') ∧ p = (x + j, y) := by
  intro cs
  induction cs with
  | nil =>
    intro x core p
    simp [scanRow]
  | cons c cs ih =>
    intro x core p
    rw [scanRow]
    simp only []
    rw [ih, cons_exists_shift c cs (fun c2 => c2 = '.' ∨ c2 = '+' ∨ c2 = '*') x y p]
    split_ifs with h1 h2 h3 h4 h5
    · subst h1
      exact iff_shuffle_miss _ _ _ _ (by decide)
    · subst h2
      rw [Finset.mem_insert]
      exact iff_shuffle_hit _ _ _ _ (by decide)
    · subst h3
      exact iff_shuffle_miss _ _ _ _ (by decide)
    · subst h4
      rw [Finset.mem_insert]
      exact iff_shuffle_hit _ _ _ _ (by decide)
    · subst h5
      rw [Finset.mem_insert]
      exact iff_shuffle_hit _ _ _ _ (by decide)
    · exact iff_shuffle_miss _ _ _ _ (by simp [h2, h4, h5])

lemma cons_forall_shift {α : Type} (a : α) (l : List α) (Q : α → Prop) :
    (∀ j : Nat, ∀ b, (a :: l).get? j = some b → Q b) ↔
      Q a ∧ ∀ j : Nat, ∀ b, l.get? j = some b → Q b := by
  constructor
  · intro h
    exact ⟨h 0 a rfl, fun j b hg => h (j + 1) b hg⟩
  · rintro ⟨h0, h⟩ j b hg
    cases j with
    | zero =>
      cases hg
      exact h0
    | succ j => exact h j b hg

lemma scanRow_player_none (y : Int) : ∀ (cs : List Char) (x : Int) (core : ScanCore),
    (scanRow y x cs core).1.1 = none ↔
      core.1 = none ∧ ∀ j : Nat, ∀ c, cs.get? j = some c → ¬(c = '@' ∨ c = '+') := by
  intro cs
  induction cs with
  | nil =>
    intro x core
    simp [scanRow]
  | cons c cs ih =>
    intro x core
    rw [scanRow]
    simp only []
    rw [ih, cons_forall_shift c cs (fun c2 => ¬(c2 = '@' ∨ c2 = '+'))]
    split_ifs with h1 h2 h3 h4 h5
    · subst h1
      simp
    · subst h2
      simp
    · subst h3
      have : ¬('$' = '@' ∨ '$' = '+') := by decide
      tauto
    · subst h4
      have : ¬('*' = '@' ∨ '*' = '+') := by decide
      tauto
    · subst h5
      have : ¬('.' = '@' ∨ '.' = '+') := by decide
      tauto
    · have : ¬(c = '@' ∨ c = '+') := by simp [h1, h2]
      tauto

lemma scanRow_player_some (y : Int) : ∀ (cs : List Char) (x : Int) (core : ScanCore) (p : Pos),
    (scanRow y x cs core).1.1 = some p →
      core.1 = some p ∨
        ∃ j : Nat, ∃ c, cs.get? j = some c ∧ (c = '@' ∨ c = '+') ∧ p = (x + j, y) := by
  intro cs
  induction cs with
  | nil =>
    intro x core p h
    exact Or.inl h
  | cons c cs ih =>
    intro x core p h
    rw [scanRow] at h
    simp only [] at h
    rcases ih _ _ _ h with h2 | h2
    · revert h2
      split_ifs with h1 hp2 h3 h4 h5 <;> intro hstep
      · right
        refine (cons_exists_shift c cs (fun c2 => c2 = '@' ∨ c2 = '+') x y p).mpr
          (Or.inl ⟨by simp [h1], (Option.some.inj hstep).symm⟩)
      · right
        refine (cons_exists_shift c cs (fun c2 => c2 = '@' ∨ c2 = '+') x y p).mpr
          (Or.inl ⟨by simp [hp2], (Option.some.inj hstep).symm⟩)
      · exact Or.inl hstep
      · exact Or.inl hstep
      · exact Or.inl hstep
      · exact Or.inl hstep
    · right
      exact (cons_exists_shift c cs (fun c2 => c2 = '@' ∨ c2 = '+') x y p).mpr (Or.inr h2)

lemma cons_exists_shift_rows {α : Type} (a : α) (l : List α) (Q : α → Int → Prop) (y : Int) :
    (∃ i : Nat, ∃ b, (a :: l).get? i = some b ∧ Q b (y + i)) ↔
      (Q a y ∨ ∃ i : Nat, ∃ b, l.get? i = some b ∧ Q b (y + 1 + i)) := by
  constructor
  · rintro ⟨i, b, hget, hQ⟩
    cases i with
    | zero =>
      cases hget
      left
      simpa using hQ
    | succ i =>
      right
      refine ⟨i, b, hget, ?_⟩
      have : y + 1 + (i : Int) = y + ((i : Nat) + 1 : Nat) := by
        push_cast
        ring
      rw [this]
      exact hQ
  · rintro (hQ | ⟨i, b, hget, hQ⟩)
    · exact ⟨0, a, rfl, by simpa using hQ⟩
    · refine ⟨i + 1, b, hget, ?_⟩
      have : y + ((i : Nat) + 1 : Nat) = y + 1 + (i : Int) := by
        push_cast
        ring
      rw [this]
      exact hQ

lemma scanMatrix_clean : ∀ (rows : List (List Char)) (y : Int) (core : ScanCore),
    (scanMatrix y rows core).2 = rows.map (List.map normChar) := by
  intro rows
  induction rows with
  | nil => intro y core; rfl
  | cons row rows ih =>
    intro y core
    rw [scanMatrix]
    simp only [List.map_cons]
    rw [ih, scanRow_clean]

lemma scanMatrix_boxes : ∀ (rows : List (List Char)) (y : Int) (core : ScanCore) (p : Pos),
    p ∈ (scanMatrix y rows core).1.2.1 ↔
      p ∈ core.2.1 ∨
        ∃ i : Nat, ∃ r, rows.get? i = some r ∧
          ∃ j : Nat, ∃ c, r.get? j = some c ∧ (c = '$' ∨ c = '*') ∧ p = ((j : Int), y + i) := by
  intro rows
  induction rows with
  | nil =>
    intro y core p
    simp [scanMatrix]
  | cons row rows ih =>
    intro y core p
    rw [scanMatrix]
    simp only []
    rw [ih, scanRow_boxes,
      cons_exists_shift_rows row rows
        (fun r yc => ∃ j : Nat, ∃ c, r.get? j = some c ∧ (c = '$' ∨ c = '*') ∧
          p = ((j : Int), yc)) y]
    simp only [zero_add]
    rw [or_assoc]

lemma scanMatrix_goals : ∀ (rows : List (List Char)) (y : Int) (core : ScanCore) (p : Pos),
    p ∈ (scanMatrix y rows core).1.2.2 ↔
      p ∈ core.2.2 ∨
        ∃ i : Nat, ∃ r, rows.get? i = some r ∧
          ∃ j : Nat, ∃ c, r.get? j = some c ∧ (c = '.' ∨ c = '+' ∨ c = '*') ∧
            p = ((j : Int), y + i) := by
  intro rows
  induction rows with
  | nil =>
    intro y core p
    simp [scanMatrix]
  | cons row rows ih =>
    intro y core p
    rw [scanMatrix]
    simp only []
    rw [ih, scanRow_goals,
      cons_exists_shift_rows row rows
        (fun r yc => ∃ j : Nat, ∃ c, r.get? j = some c ∧ (c = '.' ∨ c = '+' ∨ c = '*') ∧
          p = ((j : Int), yc)) y]
    simp only [zero_add]
    rw [or_assoc]

lemma scanMatrix_player_none : ∀ (rows : List (List Char)) (y : Int) (core : ScanCore),
    (scanMatrix y rows core).1.1 = none ↔
      core.1 = none ∧
        ∀ i : Nat, ∀ r, rows.get? i = some r →
          ∀ j : Nat, ∀ c, r.get? j = some c → ¬(c = '@' ∨ c = '+') := by
  intro rows
  induction rows with
  | nil =>
    intro y core
    simp [scanMatrix]
  | cons row rows ih =>
    intro y core
    rw [scanMatrix]
    simp only []
    rw [ih, scanRow_player_none,
      cons_forall_shift row rows
        (fun r => ∀ j : Nat, ∀ c, r.get? j = some c → ¬(c = '@' ∨ c = '+'))]
    rw [and_assoc]

lemma scanMatrix_player_some : ∀ (rows : List (List Char)) (y : Int) (core : ScanCore) (p : Pos),
    (scanMatrix y rows core).1.1 = some p →
      core.1 = some p ∨
        ∃ i : Nat, ∃ r, rows.get? i = some r ∧
          ∃ j : Nat, ∃ c, r.get? j = some c ∧ (c = '@' ∨ c = '+') ∧
            p = ((j : Int), y + i) := by
  intro rows
  induction rows with
  | nil =>
    intro y core p h
    exact Or.inl h
  | cons row rows ih =>
    intro y core p h
    rw [scanMatrix] at h
    simp only [] at h
    rcases ih _ _ _ h with h2 | h2
    · rcases scanRow_player_some _ _ _ _ _ h2 with h3 | h3
      · exact Or.inl h3
      · right
        refine (cons_exists_shift_rows row rows
          (fun r yc => ∃ j : Nat, ∃ c, r.get? j = some c ∧ (c = '@' ∨ c = '+') ∧
            p = ((j : Int), yc)) y).mpr (Or.inl ?_)
        simpa only [zero_add] using h3
    · right
      exact (cons_exists_shift_rows row rows
        (fun r yc => ∃ j : Nat, ∃ c, r.get? j = some c ∧ (c = '@' ∨ c = '+') ∧
          p = ((j : Int), yc)) y).mpr (Or.inr h2)

lemma cell_eq_some_iff (m : List (List Char)) (x y : Int) (c : Char) :
    cell m x y = some c ↔
      ∃ i j : Nat, ∃ row, m.get? i = some row ∧ row.get? j = some c ∧
        x = (j : Int) ∧ y = (i : Int) := by
  constructor
  · intro h
    unfold cell at h
    by_cases hy : y < 0
    · rw [if_pos hy] at h
      cases h
    · rw [if_neg hy] at h
      revert h
      cases hrow : m.get? y.toNat with
      | none =>
        intro h
        cases h
      | some row =>
        intro h
        split_ifs at h with hx
        exact ⟨y.toNat, x.toNat, row, hrow, h, by omega, by omega⟩
  · rintro ⟨i, j, row, hrow, hc, rfl, rfl⟩
    unfold cell
    rw [if_neg (by omega)]
    have hi : ((i : Int)).toNat = i := by omega
    rw [hi, hrow]
    dsimp only []
    rw [if_neg (by omega)]
    have hj : ((j : Int)).toNat = j := by omega
    rw [hj, hc]

lemma exists_cell_iff (m : List (List Char)) (P : Char → Prop) (p : Pos) :
    (∃ i : Nat, ∃ r, m.get? i = some r ∧
      ∃ j : Nat, ∃ c, r.get? j = some c ∧ P c ∧ p = ((j : Int), (0 : Int) + i)) ↔
      ∃ c, cell m p.1 p.2 = some c ∧ P c := by
  constructor
  · rintro ⟨i, r, hr, j, c, hc, hP, rfl⟩
    refine ⟨c, ?_, hP⟩
    rw [cell_eq_some_iff]
    exact ⟨i, j, r, hr, hc, rfl, by omega⟩
  · rintro ⟨c, hcell, hP⟩
    rw [cell_eq_some_iff] at hcell
    rcases hcell with ⟨i, j, r, hr, hc, hx, hy⟩
    refine ⟨i, r, hr, j, c, hc, hP, ?_⟩
    rw [Prod.ext_iff]
    exact ⟨hx, by omega⟩

lemma exists_eq_or2 (o : Option Char) (a b : Char) :
    (∃ c, o = some c ∧ (c = a ∨ c = b)) ↔ (o = some a ∨ o = some b) := by
  constructor
  · rintro ⟨c, hc, rfl | rfl⟩
    · exact Or.inl hc
    · exact Or.inr hc
  · rintro (h | h)
    · exact ⟨a, h, Or.inl rfl⟩
    · exact ⟨b, h, Or.inr rfl⟩

lemma exists_eq_or3 (o : Option Char) (a b c : Char) :
    (∃ d, o = some d ∧ (d = a ∨ d = b ∨ d = c)) ↔
      (o = some a ∨ o = some b ∨ o = some c) := by
  constructor
  · rintro ⟨d, hd, rfl | rfl | rfl⟩
    · exact Or.inl hd
    · exact Or.inr (Or.inl hd)
    · exact Or.inr (Or.inr hd)
  · rintro (h | h | h)
    · exact ⟨a, h, Or.inl rfl⟩
    · exact ⟨b, h, Or.inr (Or.inl rfl)⟩
    · exact ⟨c, h, Or.inr (Or.inr rfl)⟩

lemma cell_map_norm (m : List (List Char)) (x y : Int) :
    cell (m.map (List.map normChar)) x y = (cell m x y).map normChar := by
  unfold cell
  by_cases hy : y < 0
  · rw [if_pos hy, if_pos hy]
    rfl
  · rw [if_neg hy, if_neg hy, List.get?_map]
    cases m.get? y.toNat with
    | none => rfl
    | some row =>
      show (if x < 0 then none else (row.map normChar).get? x.toNat) =
        (if x < 0 then none else row.get? x.toNat).map normChar
      by_cases hx : x < 0
      · rw [if_pos hx, if_pos hx]
        rfl
      · rw [if_neg hx, if_neg hx, List.get?_map]

lemma normChar_eq_hash (c : Char) : normChar c = '#' ↔ c = '#' := by
  unfold normChar
  split_ifs with h1 h2 h3 h4 h5
  · subst h1; decide
  · subst h2; decide
  · subst h3; decide
  · subst h4; decide
  · subst h5; decide
  · exact Iff.rfl

/-- C8: state construction from a raw grid over the documented alphabet
fails (returns `none`, modeling the `ValueError`) iff the grid has no
player tile; otherwise the returned state's player sits on a player tile,
its boxes are exactly the `$`/`*` cells, its goals exactly the `.`/`+`/`*`
cells, and the normalized grid has the same shape with every non-wall
symbol replaced by floor — a cell is `#` in the clean grid iff it was `#`
in the raw grid, and every clean cell is either `#` or floor. -/
theorem create_initial_state_spec (m : List (List Char))
    (halpha : ∀ row ∈ m, ∀ c ∈ row,
      c = '#' ∨ c = ' ' ∨ c = '@' ∨ c = '+' ∨ c = '$' ∨ c = '.' ∨ c = '*') :
    (createInitialState m = none ↔
      ∀ x y : Int, cell m x y ≠ some '@' ∧ cell m x y ≠ some '+') ∧
    (∀ st, createInitialState m = some st →
      (cell m st.player.1 st.player.2 = some '@' ∨
        cell m st.player.1 st.player.2 = some '+') ∧
      (∀ p : Pos, p ∈ st.boxes ↔
        cell m p.1 p.2 = some '$' ∨ cell m p.1 p.2 = some '*') ∧
      (∀ p : Pos, p ∈ st.goals ↔
        cell m p.1 p.2 = some '.' ∨ cell m p.1 p.2 = some '+' ∨
          cell m p.1 p.2 = some '*') ∧
      (∀ x y : Int, (cell st.matrix x y).isSome ↔ (cell m x y).isSome) ∧
      (∀ x y : Int, cell st.matrix x y = some '#' ↔ cell m x y = some '#') ∧
      (∀ x y : Int, ∀ c, cell st.matrix x y = some c → c = '#' ∨ c = ' ')) := by
  constructor
  · unfold createInitialState
    cases hres : (scanMatrix 0 m ((none : Option Pos), (∅ : Finset Pos), (∅ : Finset Pos))).1.1 with
    | none =>
      have hnp := ((scanMatrix_player_none m 0 _).mp hres).2
      refine iff_of_true rfl ?_
      intro x y
      constructor
      · intro hcell
        rw [cell_eq_some_iff] at hcell
        rcases hcell with ⟨i, j, row, hrow, hc, _, _⟩
        exact hnp i row hrow j '@' hc (Or.inl rfl)
      · intro hcell
        rw [cell_eq_some_iff] at hcell
        rcases hcell with ⟨i, j, row, hrow, hc, _, _⟩
        exact hnp i row hrow j '+' hc (Or.inr rfl)
    | some p =>
      constructor
      · intro h
        cases h
      · intro hall
        exfalso
        rcases scanMatrix_player_some m 0 _ p hres with h | ⟨i, r, hr, j, c, hc, hpc, rfl⟩
        · cases h
        · have hcell : cell m (j : Int) ((0 : Int) + (i : Nat)) = some c := by
            rw [cell_eq_some_iff]
            exact ⟨i, j, r, hr, hc, rfl, by omega⟩
          rcases hpc with rfl | rfl
          · exact (hall _ _).1 hcell
          · exact (hall _ _).2 hcell
  · intro st hst
    unfold createInitialState at hst
    revert hst
    cases hres : (scanMatrix 0 m ((none : Option Pos), (∅ : Finset Pos), (∅ : Finset Pos))).1.1 with
    | none =>
      intro hst
      cases hst
    | some p =>
      intro hst
      have hst2 := Option.some.inj hst
      subst hst2
      have hclean : (SokoState.root (scanMatrix 0 m (none, ∅, ∅)).2 p
          (scanMatrix 0 m (none, ∅, ∅)).1.2.1 (scanMatrix 0 m (none, ∅, ∅)).1.2.2).matrix
          = m.map (List.map normChar) := scanMatrix_clean m 0 _
      refine ⟨?_, ?_, ?_, ?_, ?_, ?_⟩
      · rcases scanMatrix_player_some m 0 _ p hres with h | ⟨i, r, hr, j, c, hc, hpc, rfl⟩
        · cases h
        · apply (exists_eq_or2 _ '@' '+').mp
          apply (exists_cell_iff m (fun c2 => c2 = '@' ∨ c2 = '+') _).mp
          exact ⟨i, r, hr, j, c, hc, hpc, rfl⟩
      · intro q
        have hbx := scanMatrix_boxes m 0 (none, ∅, ∅) q
        simp only [Finset.not_mem_empty, false_or] at hbx
        exact hbx.trans ((exists_cell_iff m (fun c2 => c2 = '$' ∨ c2 = '*') q).trans
          (exists_eq_or2 _ '$' '*'))
      · intro q
        have hgl := scanMatrix_goals m 0 (none, ∅, ∅) q
        simp only [Finset.not_mem_empty, false_or] at hgl
        exact hgl.trans ((exists_cell_iff m
          (fun c2 => c2 = '.' ∨ c2 = '+' ∨ c2 = '*') q).trans (exists_eq_or3 _ '.' '+' '*'))
      · intro x y
        rw [hclean, cell_map_norm]
        cases cell m x y <;> simp
      · intro x y
        rw [hclean, cell_map_norm]
        cases cell m x y with
        | none => simp
        | some c => simp [normChar_eq_hash]
      · intro x y c hcell
        rw [hclean, cell_map_norm] at hcell
        revert hcell
        cases hc : cell m x y with
        | none =>
          intro hcell
          cases hcell
        | some c0 =>
          intro hcell
          have hceq : c = normChar c0 := (Option.some.inj hcell).symm
          subst hceq
          rw [cell_eq_some_iff] at hc
          rcases hc with ⟨i, j, row, hrow, hc0, _, _⟩
          have hrowmem : row ∈ m := List.get?_mem hrow
          have hc0mem : c0 ∈ row := List.get?_mem hc0
          rcases halpha row hrowmem c0 hc0mem with rfl | rfl | rfl | rfl | rfl | rfl | rfl <;>
            decide

theorem create_initial_state_spec_witness :
    cell rawDemo demoState.player.1 demoState.player.2 = some '@' ∨
    cell rawDemo demoState.player.1 demoState.player.2 = some '+' :=
  ((create_initial_state_spec rawDemo (by decide)).2 demoState (by decide)).1

theorem successor_enumeration_exact_witness :
    demoSucc ∈ getSuccessorStates demoState ∧ demoSucc.parent = some demoState := by
  have h := successor_enumeration_exact demoState
  have hmem : demoSucc ∈ getSuccessorStates demoState :=
    (h.1 demoSucc).mpr ⟨(2, 1), by decide, (1, 0, 'R'), by decide, by decide, by decide,
      by decide, by decide, by decide⟩
  exact ⟨hmem, (h.2 demoSucc hmem).2.1⟩

/-! ## Heuristic lemmas (C6, C7) -/

lemma foldl_step_lower {α : Type} (f : Int → α → Int) (hf : ∀ a x, a ≤ f a x) :
    ∀ (l : List α) (a : Int), a ≤ l.foldl f a := by
  intro l
  induction l with
  | nil => intro a; exact le_refl a
  | cons x xs ih =>
    intro a
    exact le_trans (hf a x) (ih (f a x))

lemma foldl_add_ge_of_mem {α : Type} [DecidableEq α] (g : α → Int) (hg : ∀ x, 0 ≤ g x)
    (x0 : α) : ∀ (l : List α) (a : Int), x0 ∈ l →
      a + g x0 ≤ l.foldl (fun acc x => acc + g x) a := by
  intro l
  induction l with
  | nil => intro a h; cases h
  | cons y ys ih =>
    intro a h
    rcases List.mem_cons.mp h with rfl | hmem
    · exact foldl_step_lower _ (fun a x => by have := hg x; omega) ys (a + g x0)
    · calc a + g x0 ≤ a + g y + g x0 := by have := hg y; omega
        _ ≤ _ := ih (a + g y) hmem

lemma minListInt_lower (L : Int) : ∀ (l : List Int), l ≠ [] → (∀ x ∈ l, L ≤ x) →
    L ≤ minListInt l := by
  intro l
  cases l with
  | nil => intro h; cases h rfl
  | cons c cs =>
    intro _ hall
    show L ≤ cs.foldl min c
    have hstep : ∀ (ds : List Int) (a : Int), L ≤ a → (∀ x ∈ ds, L ≤ x) → L ≤ ds.foldl min a := by
      intro ds
      induction ds with
      | nil => intro a ha _; exact ha
      | cons d ds ih =>
        intro a ha hall2
        exact ih (min a d) (le_min ha (hall2 d (List.mem_cons_self d ds)))
          (fun x hx => hall2 x (List.mem_cons_of_mem d hx))
    exact hstep cs c (hall c (List.mem_cons_self c cs)) fun x hx => hall x (List.mem_cons_of_mem c hx)

lemma minListInt_nonneg (l : List Int) (h : ∀ x ∈ l, 0 ≤ x) : 0 ≤ minListInt l := by
  cases l with
  | nil => exact le_refl 0
  | cons c cs => exact minListInt_lower 0 (c :: cs) (by simp) h

lemma minListInt_mem : ∀ (l : List Int), l ≠ [] → minListInt l ∈ l := by
  intro l
  cases l with
  | nil => intro h; cases h rfl
  | cons c cs =>
    intro _
    show cs.foldl min c ∈ c :: cs
    have haux : ∀ (ds : List Int) (a : Int), ds.foldl min a = a ∨ ds.foldl min a ∈ ds := by
      intro ds
      induction ds with
      | nil => intro a; exact Or.inl rfl
      | cons d ds ih =>
        intro a
        rcases ih (min a d) with h | h
        · rcases min_choice a d with hm | hm
          · exact Or.inl (h.trans hm)
          · exact Or.inr (List.mem_cons.mpr (Or.inl (h.trans hm)))
        · exact Or.inr (List.mem_cons_of_mem d h)
    rcases haux cs c with h | h
    · exact List.mem_cons.mpr (Or.inl h)
    · exact List.mem_cons_of_mem c h

lemma minListInt_le : ∀ (l : List Int) (x : Int), x ∈ l → minListInt l ≤ x := by
  intro l
  cases l with
  | nil => intro x h; cases h
  | cons c cs =>
    intro x hx
    show cs.foldl min c ≤ x
    have hinit : ∀ (ds : List Int) (a : Int), ds.foldl min a ≤ a := by
      intro ds
      induction ds with
      | nil => intro a; exact le_refl a
      | cons d ds ih => intro a; exact le_trans (ih (min a d)) (min_le_left a d)
    have hmem : ∀ (ds : List Int) (a x : Int), x ∈ ds → ds.foldl min a ≤ x := by
      intro ds
      induction ds with
      | nil => intro a x h; cases h
      | cons d ds ih =>
        intro a x h
        rcases List.mem_cons.mp h with rfl | h
        · exact le_trans (hinit ds (min a x)) (min_le_right a x)
        · exact ih (min a d) x h
    rcases List.mem_cons.mp hx with rfl | hx
    · exact hinit cs x
    · exact hmem cs c x hx

lemma manhattan_nonneg (p q : Pos) : 0 ≤ manhattan p q :=
  add_nonneg (abs_nonneg _) (abs_nonneg _)

lemma manhattan_pos (p q : Pos) (h : p ≠ q) : 1 ≤ manhattan p q := by
  have hne : p.1 ≠ q.1 ∨ p.2 ≠ q.2 := by
    by_contra hc
    push_neg at hc
    exact h (Prod.ext hc.1 hc.2)
  unfold manhattan
  rcases hne with hne | hne
  · have h1 : 1 ≤ |p.1 - q.1| := Int.one_le_abs (by omega)
    have h2 : 0 ≤ |p.2 - q.2| := abs_nonneg _
    omega
  · have h1 : 1 ≤ |p.2 - q.2| := Int.one_le_abs (by omega)
    have h2 : 0 ≤ |p.1 - q.1| := abs_nonneg _
    omega

lemma setToList_coe (s : Finset Pos) : ((setToList s : List Pos) : Multiset Pos) = s.val := by
  rcases s with ⟨sval, nd⟩
  induction sval using Quot.inductionOn with
  | h l => exact Quot.sound (List.perm_insertionSort posLe l)

lemma setToList_eq_nil {s : Finset Pos} : setToList s = [] ↔ s = ∅ := by
  constructor
  · intro h
    ext p
    rw [← mem_setToList, h]
    simp
  · intro h
    subst h
    rfl

lemma pick_perm : ∀ (l : List Pos) (x : Pos) (rest : List Pos),
    (x, rest) ∈ pick l → List.Perm (x :: rest) l := by
  intro l
  induction l with
  | nil => intro x rest h; cases h
  | cons y ys ih =>
    intro x rest h
    rcases List.mem_cons.mp h with h | h
    · cases h
      exact List.Perm.refl _
    · rcases List.mem_map.mp h with ⟨p0, hp0, heq⟩
      injection heq with h1 h2
      subst h1
      subst h2
      exact (List.Perm.swap y p0.1 p0.2).trans ((ih p0.1 p0.2 hp0).cons y)

lemma pick_complete : ∀ (l1 : List Pos) (x : Pos) (l2 : List Pos),
    (x, l1 ++ l2) ∈ pick (l1 ++ x :: l2) := by
  intro l1
  induction l1 with
  | nil => intro x l2; exact List.mem_cons_self _ _
  | cons y l1 ih =>
    intro x l2
    show (x, y :: l1 ++ l2) ∈ (y, l1 ++ x :: l2) :: (pick (l1 ++ x :: l2)).map _
    refine List.mem_cons_of_mem _ (List.mem_map.mpr ⟨(x, l1 ++ l2), ih x l2, rfl⟩)

lemma kpermutations_subperm : ∀ (k : Nat) (l p : List Pos), p ∈ kpermutations l k →
    p.length = k ∧ p.Subperm l := by
  intro k
  induction k with
  | zero =>
    intro l p h
    rcases List.mem_singleton.mp h with rfl
    exact ⟨rfl, List.nil_subperm⟩
  | succ k ih =>
    intro l p h
    rw [kpermutations] at h
    rcases List.mem_flatMap.mp h with ⟨xr, hxr, hp⟩
    rcases List.mem_map.mp hp with ⟨q, hq, rfl⟩
    rcases ih xr.2 q hq with ⟨hlen, hsub⟩
    have hperm : List.Perm (xr.1 :: xr.2) l := pick_perm l xr.1 xr.2 (by
      rcases xr with ⟨a, b⟩
      exact hxr)
    have hcons : (xr.1 :: q).Subperm (xr.1 :: xr.2) := by
      rcases hsub with ⟨l2, hperm2, hsub2⟩
      exact ⟨xr.1 :: l2, hperm2.cons xr.1, hsub2.cons₂ xr.1⟩
    constructor
    · simp [hlen]
    · exact hcons.trans hperm.subperm

lemma kpermutations_complete : ∀ (p l : List Pos), List.Perm p l →
    p ∈ kpermutations l l.length := by
  intro p
  induction p with
  | nil =>
    intro l h
    have : l = [] := (h.symm.eq_nil)
    subst this
    exact List.mem_singleton.mpr rfl
  | cons x q ih =>
    intro l h
    have hx : x ∈ l := h.mem_iff.mp (List.mem_cons_self x q)
    rcases List.append_of_mem hx with ⟨l1, l2, rfl⟩
    have hq : List.Perm q (l1 ++ l2) :=
      (h.trans List.perm_middle).cons_inv
    have hlen : (l1 ++ x :: l2).length = (l1 ++ l2).length + 1 := by
      simp
      omega
    rw [hlen, kpermutations]
    refine List.mem_flatMap.mpr ⟨(x, l1 ++ l2), pick_complete l1 x l2, ?_⟩
    refine List.mem_map.mpr ⟨q, ?_, rfl⟩
    have := ih (l1 ++ l2) hq
    exact this

lemma kpermutations_ne_nil : ∀ (k : Nat) (l : List Pos), k ≤ l.length →
    kpermutations l k ≠ [] := by
  intro k
  induction k with
  | zero =>
    intro l _
    simp [kpermutations]
  | succ k ih =>
    intro l hk
    cases l with
    | nil => simp at hk
    | cons y ys =>
      rw [kpermutations]
      intro hcontra
      have h1 : kpermutations ys k ≠ [] := ih ys (by simpa using hk)
      rw [pick, List.flatMap_cons] at hcontra
      rcases List.append_eq_nil.mp hcontra with ⟨hmap, _⟩
      exact h1 (List.map_eq_nil.mp hmap)

lemma minListInt_eq_of_mem_iff (l1 l2 : List Int) (h1 : l1 ≠ []) (h2 : l2 ≠ [])
    (hsub1 : ∀ x ∈ l1, x ∈ l2) (hsub2 : ∀ x ∈ l2, x ∈ l1) :
    minListInt l1 = minListInt l2 :=
  le_antisymm (minListInt_le l1 _ (hsub2 _ (minListInt_mem l2 h2)))
    (minListInt_le l2 _ (hsub1 _ (minListInt_mem l1 h1)))

lemma minCostAssignment_eq_minMatching (boxes goals : List Pos)
    (hlen : boxes.length = goals.length) (hb : boxes ≠ []) :
    minCostAssignment boxes goals = minMatchingCost boxes goals := by
  have hg : goals ≠ [] := by
    intro h
    subst h
    simp at hlen
    exact hb hlen
  unfold minCostAssignment minMatchingCost
  rw [if_neg (by tauto)]
  have hk : min boxes.length goals.length = boxes.length := by omega
  rw [hk]
  apply minListInt_eq_of_mem_iff
  · intro h
    exact kpermutations_ne_nil boxes.length goals (by omega) (List.map_eq_nil.mp h)
  · intro h
    have hmem : goals ∈ goals.permutations := List.mem_permutations.mpr (List.Perm.refl goals)
    have : goals.permutations = [] := List.map_eq_nil.mp h
    rw [this] at hmem
    cases hmem
  · intro x hx
    rcases List.mem_map.mp hx with ⟨p, hp, rfl⟩
    rcases kpermutations_subperm boxes.length goals p hp with ⟨hplen, hpsub⟩
    have hperm : List.Perm p goals := hpsub.perm_of_length_le (by omega)
    exact List.mem_map_of_mem _ (List.mem_permutations.mpr hperm)
  · intro x hx
    rcases List.mem_map.mp hx with ⟨p, hp, rfl⟩
    have hperm : List.Perm p goals := List.mem_permutations.mp hp
    have := kpermutations_complete p goals hperm
    rw [← hlen] at this
    exact List.mem_map_of_mem _ this

lemma minCostAssignment_pos (boxes goals : List Pos) (hb : boxes ≠ []) (hg : goals ≠ [])
    (hdisj : ∀ x ∈ boxes, ∀ y ∈ goals, x ≠ y) : 1 ≤ minCostAssignment boxes goals := by
  unfold minCostAssignment
  rw [if_neg (by tauto)]
  have hbpos : 0 < boxes.length := List.length_pos.mpr hb
  have hgpos : 0 < goals.length := List.length_pos.mpr hg
  apply minListInt_lower
  · intro h
    exact kpermutations_ne_nil (min boxes.length goals.length) goals (by omega)
      (List.map_eq_nil.mp h)
  · intro x hx
    rcases List.mem_map.mp hx with ⟨perm, hperm, rfl⟩
    rcases kpermutations_subperm _ goals perm hperm with ⟨hplen, hpsub⟩
    have h0mem : (0 : Nat) ∈ List.range (min boxes.length goals.length) :=
      List.mem_range.mpr (by omega)
    have hbmem : boxes.getD 0 (0, 0) ∈ boxes := by
      rw [List.getD_eq_getElem boxes (0, 0) hbpos]
      exact List.getElem_mem hbpos
    have hpmem : perm.getD 0 (0, 0) ∈ goals := by
      have hppos : 0 < perm.length := by omega
      refine hpsub.subset ?_
      rw [List.getD_eq_getElem perm (0, 0) hppos]
      exact List.getElem_mem hppos
    have hone := manhattan_pos _ _ (hdisj _ hbmem _ hpmem)
    have hstep : (0 : Int) + manhattan (boxes.getD 0 (0, 0)) (perm.getD 0 (0, 0)) ≤
        (List.range (min boxes.length goals.length)).foldl
          (fun c i => c + manhattan (boxes.getD i (0, 0)) (perm.getD i (0, 0))) 0 :=
      foldl_add_ge_of_mem
        (fun i => manhattan (boxes.getD i (0, 0)) (perm.getD i (0, 0)))
        (fun i => manhattan_nonneg _ _) 0 (List.range (min boxes.length goals.length)) 0 h0mem
    omega

lemma offgoal_nonempty (s : SokoState) (hcard : s.boxes.card = s.goals.card)
    (hng : isGoalState s = false) :
    boxesNotOnGoals s ≠ ∅ ∧ goalsWithoutBoxes s ≠ ∅ := by
  have hne : s.boxes ≠ s.goals := by
    intro h
    simp [isGoalState, h] at hng
  constructor
  · intro h
    have hsub : s.boxes ⊆ s.goals := Finset.sdiff_eq_empty_iff_subset.mp h
    exact hne (Finset.eq_of_subset_of_card_le hsub (by omega))
  · intro h
    have hsub : s.goals ⊆ s.boxes := Finset.sdiff_eq_empty_iff_subset.mp h
    exact hne (Finset.eq_of_subset_of_card_le hsub (by omega)).symm

lemma offgoal_disjoint (s : SokoState) :
    ∀ x ∈ setToList (boxesNotOnGoals s), ∀ y ∈ setToList (goalsWithoutBoxes s), x ≠ y := by
  intro x hx y hy h
  subst h
  have h1 := mem_setToList.mp hx
  have h2 := mem_setToList.mp hy
  rw [boxesNotOnGoals, Finset.mem_sdiff] at h1
  rw [goalsWithoutBoxes, Finset.mem_sdiff] at h2
  exact h1.2 h2.1

lemma setToList_ne_nil_of_ne_empty {S : Finset Pos} (h : S ≠ ∅) : setToList S ≠ [] := by
  intro h2
  exact h (setToList_eq_nil.mp h2)

lemma simpleManhattan_pos (s : SokoState) (hgf : isGoalState s = false)
    (hbne : boxesNotOnGoals s ≠ ∅) (hgne : goalsWithoutBoxes s ≠ ∅) :
    1 ≤ simpleManhattanHeuristic s := by
  unfold simpleManhattanHeuristic
  rw [if_neg (by simp [hgf])]
  obtain ⟨b0, hb0⟩ := List.exists_mem_of_ne_nil _ (setToList_ne_nil_of_ne_empty hbne)
  have hnn : ∀ b : Pos,
      0 ≤ minListInt ((setToList (goalsWithoutBoxes s)).map (manhattan b)) := by
    intro b
    refine minListInt_nonneg _ ?_
    intro x hx
    rcases List.mem_map.mp hx with ⟨g, _, rfl⟩
    exact manhattan_nonneg _ _
  have hstep : (0 : Int) + minListInt ((setToList (goalsWithoutBoxes s)).map (manhattan b0)) ≤
      (setToList (boxesNotOnGoals s)).foldl
        (fun total b => total + minListInt ((setToList (goalsWithoutBoxes s)).map (manhattan b)))
        0 :=
    foldl_add_ge_of_mem
      (fun b => minListInt ((setToList (goalsWithoutBoxes s)).map (manhattan b)))
      hnn b0 _ 0 hb0
  have hfb0 : 1 ≤ minListInt ((setToList (goalsWithoutBoxes s)).map (manhattan b0)) := by
    refine minListInt_lower 1 _ ?_ ?_
    · intro h
      exact setToList_ne_nil_of_ne_empty hgne (List.map_eq_nil.mp h)
    · intro x hx
      rcases List.mem_map.mp hx with ⟨g, hgmem, rfl⟩
      exact manhattan_pos _ _ (offgoal_disjoint s b0 hb0 g hgmem)
  omega

lemma foldl_add_eq_sum {α : Type} (g : α → Int) :
    ∀ (l : List α) (a : Int), l.foldl (fun acc x => acc + g x) a = a + (l.map g).sum := by
  intro l
  induction l with
  | nil => intro a; simp
  | cons x xs ih =>
    intro a
    show xs.foldl _ (a + g x) = _
    rw [ih (a + g x)]
    simp [add_assoc]

lemma setToList_map_sum (S : Finset Pos) (g : Pos → Int) :
    ((setToList S).map g).sum = ∑ b ∈ S, g b := by
  have hcoe := setToList_coe S
  rw [Finset.sum]
  rw [← hcoe]
  rw [Multiset.map_coe, Multiset.sum_coe]

lemma minList_map_eq_inf (S : Finset Pos) (hne : S.Nonempty) (g : Pos → Int) :
    minListInt ((setToList S).map g) = S.inf' hne g := by
  have hl : setToList S ≠ [] := by
    intro h
    rw [setToList_eq_nil] at h
    subst h
    exact Finset.not_nonempty_empty hne
  apply le_antisymm
  · obtain ⟨b0, hb0, hval⟩ := Finset.exists_mem_eq_inf' hne g
    rw [hval]
    exact minListInt_le _ _ (List.mem_map_of_mem g (mem_setToList.mpr hb0))
  · have hmem := minListInt_mem ((setToList S).map g) (by simpa using hl)
    rcases List.mem_map.mp hmem with ⟨b, hb, heq⟩
    rw [← heq]
    exact Finset.inf'_le g (mem_setToList.mp hb)

lemma simpleManhattan_eq_sum (s : SokoState) (hgf : isGoalState s = false)
    (hgne : (goalsWithoutBoxes s).Nonempty) :
    simpleManhattanHeuristic s =
      ∑ b ∈ boxesNotOnGoals s, (goalsWithoutBoxes s).inf' hgne (manhattan b) := by
  unfold simpleManhattanHeuristic
  rw [if_neg (by simp [hgf])]
  have h1 : (setToList (boxesNotOnGoals s)).foldl
      (fun total b => total + minListInt ((setToList (goalsWithoutBoxes s)).map (manhattan b)))
      0 = (0 : Int) + ((setToList (boxesNotOnGoals s)).map
        (fun b => minListInt ((setToList (goalsWithoutBoxes s)).map (manhattan b)))).sum :=
    foldl_add_eq_sum _ _ _
  rw [h1, zero_add]
  have h2 : (fun b => minListInt ((setToList (goalsWithoutBoxes s)).map (manhattan b))) =
      fun b => (goalsWithoutBoxes s).inf' hgne (manhattan b) := by
    funext b
    exact minList_map_eq_inf _ hgne (manhattan b)
  rw [h2, setToList_map_sum]

/-- C6: for every state whose box set and goal set have equal cardinality,
`our_heuristic` returns a non-negative value, returns 0 exactly on goal
states, and returns a strictly positive value on every non-goal state. -/
theorem heuristic_zero_iff_goal (s : SokoState) (hcard : s.boxes.card = s.goals.card) :
    0 ≤ ourHeuristic s ∧ (ourHeuristic s = 0 ↔ isGoalState s = true) ∧
      (isGoalState s = false → 1 ≤ ourHeuristic s) := by
  cases hb : isGoalState s with
  | true =>
    have hval : ourHeuristic s = 0 := by
      unfold ourHeuristic
      rw [if_pos hb]
    rw [hval]
    refine ⟨le_refl 0, by simp [hb], ?_⟩
    intro h
    simp at h
  | false =>
    obtain ⟨hbne, hgne⟩ := offgoal_nonempty s hcard hb
    have hbl := setToList_ne_nil_of_ne_empty hbne
    have hgl := setToList_ne_nil_of_ne_empty hgne
    have hbase : 1 ≤ hungarianAssignmentHeuristic s := by
      unfold hungarianAssignmentHeuristic
      rw [if_neg (by simp [hb])]
      show 1 ≤ (if setToList (boxesNotOnGoals s) = [] ∨ setToList (goalsWithoutBoxes s) = []
        then (0 : Int)
        else if (setToList (boxesNotOnGoals s)).length ≤ 4 ∧
            (setToList (goalsWithoutBoxes s)).length ≤ 4
          then minCostAssignment (setToList (boxesNotOnGoals s))
            (setToList (goalsWithoutBoxes s))
          else simpleManhattanHeuristic s)
      rw [if_neg (by tauto)]
      split_ifs with h4
      · exact minCostAssignment_pos _ _ hbl hgl (offgoal_disjoint s)
      · exact simpleManhattan_pos s hb hbne hgne
    have hval : ourHeuristic s = hungarianAssignmentHeuristic s +
        (if boxesNotOnGoals s = ∅ then 0
         else max 0 (minListInt ((setToList (boxesNotOnGoals s)).map (manhattan s.player)) - 1)) +
        calculateDeadlockPenalty s := by
      unfold ourHeuristic
      rw [if_neg (by simp [hb])]
    have hpc : (0 : Int) ≤ (if boxesNotOnGoals s = ∅ then 0
        else max 0 (minListInt ((setToList (boxesNotOnGoals s)).map (manhattan s.player)) - 1)) := by
      split_ifs
      · exact le_refl 0
      · exact le_max_left 0 _
    have hpen : (0 : Int) ≤ calculateDeadlockPenalty s := by
      unfold calculateDeadlockPenalty
      exact foldl_step_lower _ (fun a x => by split_ifs <;> omega) _ 0
    refine ⟨by omega, ⟨?_, ?_⟩, fun _ => by omega⟩
    · intro h0
      exfalso
      omega
    · intro h
      exact absurd h (by simp [hb])

/-- C7: under the equal-cardinality invariant, the assignment-cost term of
the heuristic equals the exact minimum-cost one-to-one matching between
boxes-off-goal and goals-unfilled under Manhattan distance whenever both
sets have at most 4 elements (`minMatchingCost`, modelled independently
from the spec via full goal-list permutations), and otherwise equals the
sum, over each box off goal, of the Manhattan distance to its nearest
unfilled goal (expressed via `Finset.inf'`). -/
theorem assignment_cost_exact_or_greedy (s : SokoState)
    (hcard : s.boxes.card = s.goals.card) :
    ((setToList (boxesNotOnGoals s)).length ≤ 4 →
      (setToList (goalsWithoutBoxes s)).length ≤ 4 →
      hungarianAssignmentHeuristic s =
        minMatchingCost (setToList (boxesNotOnGoals s)) (setToList (goalsWithoutBoxes s))) ∧
    (∀ hgne : (goalsWithoutBoxes s).Nonempty,
      (4 < (setToList (boxesNotOnGoals s)).length ∨
        4 < (setToList (goalsWithoutBoxes s)).length) →
      hungarianAssignmentHeuristic s =
        ∑ b ∈ boxesNotOnGoals s, (goalsWithoutBoxes s).inf' hgne (manhattan b)) := by
  have hlen : (setToList (boxesNotOnGoals s)).length =
      (setToList (goalsWithoutBoxes s)).length := by
    rw [length_setToList, length_setToList]
    exact Finset.card_sdiff_comm hcard
  constructor
  · intro h4b h4g
    by_cases hb : isGoalState s = true
    · have hbg : s.boxes = s.goals := by simpa [isGoalState] using hb
      have hb0 : boxesNotOnGoals s = ∅ := by
        rw [boxesNotOnGoals, hbg]
        exact Finset.sdiff_self _
      have hg0 : goalsWithoutBoxes s = ∅ := by
        rw [goalsWithoutBoxes, hbg]
        exact Finset.sdiff_self _
      have hhv : hungarianAssignmentHeuristic s = 0 := by
        unfold hungarianAssignmentHeuristic
        rw [if_pos hb]
      rw [hhv, hb0, hg0]
      rw [show setToList (∅ : Finset Pos) = [] from rfl]
      unfold minMatchingCost
      rw [List.permutations_nil]
      simp [minListInt]
    · have hb2 : isGoalState s = false := Bool.eq_false_iff.mpr hb
      obtain ⟨hbne, hgne⟩ := offgoal_nonempty s hcard hb2
      have hbl := setToList_ne_nil_of_ne_empty hbne
      have hgl := setToList_ne_nil_of_ne_empty hgne
      unfold hungarianAssignmentHeuristic
      rw [if_neg (by simp [hb2])]
      show (if setToList (boxesNotOnGoals s) = [] ∨ setToList (goalsWithoutBoxes s) = []
        then (0 : Int)
        else if (setToList (boxesNotOnGoals s)).length ≤ 4 ∧
            (setToList (goalsWithoutBoxes s)).length ≤ 4
          then minCostAssignment (setToList (boxesNotOnGoals s))
            (setToList (goalsWithoutBoxes s))
          else simpleManhattanHeuristic s) = _
      rw [if_neg (by tauto), if_pos ⟨h4b, h4g⟩]
      exact minCostAssignment_eq_minMatching _ _ hlen hbl
  · intro hgne h4
    have hb : isGoalState s = false := by
      by_cases hb : isGoalState s = true
      case neg => exact Bool.eq_false_iff.mpr hb
      case pos =>
        exfalso
        have hbg : s.boxes = s.goals := by simpa [isGoalState] using hb
        have hb0 : boxesNotOnGoals s = ∅ := by
          rw [boxesNotOnGoals, hbg]
          exact Finset.sdiff_self _
        have hg0 : goalsWithoutBoxes s = ∅ := by
          rw [goalsWithoutBoxes, hbg]
          exact Finset.sdiff_self _
        rcases h4 with h4 | h4
        · rw [hb0] at h4
          simp [show setToList (∅ : Finset Pos) = [] from rfl] at h4
        · rw [hg0] at h4
          simp [show setToList (∅ : Finset Pos) = [] from rfl] at h4
    obtain ⟨hbne, hgne2⟩ := offgoal_nonempty s hcard hb
    have hbl := setToList_ne_nil_of_ne_empty hbne
    have hgl := setToList_ne_nil_of_ne_empty hgne2
    unfold hungarianAssignmentHeuristic
    rw [if_neg (by simp [hb])]
    show (if setToList (boxesNotOnGoals s) = [] ∨ setToList (goalsWithoutBoxes s) = []
      then (0 : Int)
      else if (setToList (boxesNotOnGoals s)).length ≤ 4 ∧
          (setToList (goalsWithoutBoxes s)).length ≤ 4
        then minCostAssignment (setToList (boxesNotOnGoals s))
          (setToList (goalsWithoutBoxes s))
        else simpleManhattanHeuristic s) = _
    rw [if_neg (by tauto), if_neg (by rcases h4 with h4 | h4 <;> omega)]
    exact simpleManhattan_eq_sum s hb hgne


theorem heuristic_zero_iff_goal_witness :
    0 ≤ ourHeuristic demoState ∧ (ourHeuristic demoState = 0 ↔ isGoalState demoState = true) ∧
      (isGoalState demoState = false → 1 ≤ ourHeuristic demoState) :=
  heuristic_zero_iff_goal demoState (by decide)

theorem assignment_cost_exact_or_greedy_witness :
    hungarianAssignmentHeuristic demoState =
      minMatchingCost (setToList (boxesNotOnGoals demoState))
        (setToList (goalsWithoutBoxes demoState)) ∧
    hungarianAssignmentHeuristic bigState =
      ∑ b ∈ boxesNotOnGoals bigState,
        (goalsWithoutBoxes bigState).inf' (by decide) (manhattan b) :=
  ⟨(assignment_cost_exact_or_greedy demoState (by decide)).1 (by decide) (by decide),
   (assignment_cost_exact_or_greedy bigState (by decide)).2 (by decide) (by decide)⟩

/-! ## Search driver theorems (C9, C10) -/

lemma astarLoop_ok_success_false (maxStates : Nat) (useDD : Bool) :
    ∀ (fuel : Nat) (openL : List OpenEntry) (closed : Finset StateKey)
      (costs : List (StateKey × Int)) (explored generated : Nat) (r : SearchResult),
      astarLoop maxStates useDD fuel openL closed costs explored generated = Except.ok r →
      r.success = false := by
  intro fuel
  induction fuel with
  | zero =>
    intro openL closed costs explored generated r h
    simp only [astarLoop] at h
    cases h
    rfl
  | succ fuel ih =>
    intro openL closed costs explored generated r h
    cases openL with
    | nil =>
      simp only [astarLoop] at h
      cases h
      rfl
    | cons e es =>
      simp only [astarLoop] at h
      split_ifs at h with h1 h2 h3 <;>
        first
          | exact ih _ _ _ _ _ _ h
          | (cases h; rfl)

lemma dfsLoop_success_shape (maxStates : Nat) (useDD : Bool) :
    ∀ (fuel : Nat) (stack : List SokoState) (closed : Finset StateKey)
      (explored : Nat) (r : SearchResult),
      dfsLoop maxStates useDD fuel stack closed explored = r →
      r.success = true →
      ∃ g, r.finalState = some g ∧ r.solution = getSolutionPath g ∧
        isGoalState g = true := by
  intro fuel
  induction fuel with
  | zero =>
    intro stack closed explored r h hs
    simp only [dfsLoop] at h
    subst h
    simp at hs
  | succ fuel ih =>
    intro stack closed explored r h hs
    cases stack with
    | nil =>
      simp only [dfsLoop] at h
      subst h
      simp at hs
    | cons cur rest =>
      simp only [dfsLoop] at h
      split_ifs at h with h1 h2 h3 <;>
        first
          | exact ih _ _ _ _ h hs
          | (subst h; exact ⟨cur, rfl, rfl, h3⟩)
          | (subst h; simp at hs)

/-- C9: an initial state that is already a goal state makes both solvers
return immediately with success, an empty solution and exactly one explored
state (the guard before either search loop starts). -/
theorem initial_goal_state_solved (maxStates : Nat) (useDD : Bool) (fuel : Nat)
    (s : SokoState) (h : isGoalState s = true) :
    astarSolve maxStates useDD fuel s = Except.ok ⟨true, [], 1, some s, none⟩ ∧
    dfsSolve maxStates useDD fuel s = ⟨true, [], 1, some s, none⟩ := by
  refine ⟨?_, ?_⟩
  · unfold astarSolve
    rw [if_pos h]
  · unfold dfsSolve
    rw [if_pos h]

theorem initial_goal_state_solved_witness :
    isGoalState solvedState = true ∧
      (astarSolve 100 true 20 solvedState =
          Except.ok ⟨true, [], 1, some solvedState, none⟩ ∧
        dfsSolve 100 true 20 solvedState = ⟨true, [], 1, some solvedState, none⟩) :=
  ⟨by decide, initial_goal_state_solved 100 true 20 solvedState (by decide)⟩

/-- C10: the claimed granularity split fails on the A* side.  The DFS driver
does return the push-only sequence (`get_solution_path` of the terminal
state) on every success from a non-goal start.  The A* driver, however, can
never return a successful result from a non-goal start: reaching a goal
inside its loop executes `MoveGenerator(current_state).get_detailed_solution_moves(...)`,
an attribute access that raises `AttributeError` because
`get_detailed_solution_moves` is a module-level function of
`move_generation.py` and not a method of `MoveGenerator`; so any
`Except.ok` success from `astarSolve` forces the initial state itself to be
a goal, with an empty solution.  The demo one-push level exhibits both
behaviours concretely. -/
theorem solution_granularity :
    (∀ (maxStates : Nat) (useDD : Bool) (fuel : Nat) (s : SokoState) (r : SearchResult),
        astarSolve maxStates useDD fuel s = Except.ok r → r.success = true →
        isGoalState s = true ∧ r.solution = []) ∧
    (∀ (maxStates : Nat) (useDD : Bool) (fuel : Nat) (s : SokoState),
        isGoalState s = false →
        (dfsSolve maxStates useDD fuel s).success = true →
        ∃ g, (dfsSolve maxStates useDD fuel s).finalState = some g ∧
          (dfsSolve maxStates useDD fuel s).solution = getSolutionPath g ∧
          isGoalState g = true) ∧
    astarSolve 100 true 20 demoState =
      Except.error "AttributeError: MoveGenerator object has no attribute get_detailed_solution_moves" ∧
    dfsSolve 100 true 20 demoState = ⟨true, ['R'], 2, some demoSucc, none⟩ := by
  refine ⟨?_, ?_, by rfl, by decide⟩
  · intro maxStates useDD fuel s r h hs
    unfold astarSolve at h
    by_cases hg : isGoalState s = true
    · rw [if_pos hg] at h
      cases h
      exact ⟨hg, rfl⟩
    · rw [if_neg hg] at h
      have := astarLoop_ok_success_false maxStates useDD fuel _ _ _ _ _ _ h
      rw [hs] at this
      cases this
  · intro maxStates useDD fuel s hg hs
    unfold dfsSolve at hs ⊢
    rw [if_neg (by simp [hg])] at hs ⊢
    exact dfsLoop_success_shape maxStates useDD fuel [s] ∅ 0 _ rfl hs

theorem solution_granularity_witness :
    isGoalState demoState = false ∧
    ∃ g, (dfsSolve 100 true 20 demoState).finalState = some g ∧
      (dfsSolve 100 true 20 demoState).solution = getSolutionPath g ∧
      isGoalState g = true :=
  ⟨by decide, solution_granularity.2.1 100 true 20 demoState (by decide) (by decide)⟩

/-! ## Detailed replay (C2) -/

lemma applyMoves_append (xs : List Char) :
    ∀ (s : SokoState) (ys : List Char),
      applyMoves s (xs ++ ys) = (applyMoves s xs).bind (fun s2 => applyMoves s2 ys) := by
  induction xs with
  | nil => intro s ys; rfl
  | cons c cs ih =>
    intro s ys
    simp only [List.cons_append, applyMoves]
    cases applySingleMove s c with
    | none => rfl
    | some s2 => exact ih s2 ys

lemma isWall_false_iff (m : List (List Char)) (x y : Int) :
    isWall m x y = false ↔ ∃ c, cell m x y = some c ∧ c ≠ '#' := by
  unfold isWall
  cases h : cell m x y with
  | none => simp
  | some c =>
    by_cases hc : c = '#' <;> simp [hc]

lemma dirs_dirmap : ∀ d ∈ DIRECTIONS, directionMap d.2.2 = some (d.1, d.2.1) := by decide

lemma setToList_singleton (b : Pos) : setToList {b} = [b] := rfl

lemma succ_fields {p t : SokoState} (h : t ∈ getSuccessorStates p) :
    t.matrix = p.matrix ∧ t.goals = p.goals ∧ t.parent = some p := by
  rcases (mem_successors_iff p t).mp h with ⟨b, _, d, _, _, _, rfl⟩
  exact ⟨rfl, rfl, rfl⟩

lemma reachedBy_fields {s0 g : SokoState} (h : ReachedBy s0 g) :
    g.matrix = s0.matrix ∧ g.goals = s0.goals := by
  induction h with
  | refl => exact ⟨rfl, rfl⟩
  | step _ hsucc ih =>
    rcases succ_fields hsucc with ⟨h1, h2, _⟩
    exact ⟨h1.trans ih.1, h2.trans ih.2⟩

lemma succ_boxesOk {p t : SokoState} (h : t ∈ getSuccessorStates p)
    (hok : boxesOk p.matrix p.boxes) : boxesOk p.matrix t.boxes := by
  rcases (mem_successors_iff p t).mp h with ⟨b, hb, d, hd, hvalid, _, rfl⟩
  rcases (isValidBoxPosition_iff _ _ _).mp hvalid with ⟨h1, h2, _⟩
  intro x hx
  rcases Finset.mem_insert.mp hx with rfl | hx2
  · rcases Option.isSome_iff_exists.mp h1 with ⟨c, hc⟩
    exact (isWall_false_iff _ _ _).mpr ⟨c, hc, fun he => h2 (he ▸ hc)⟩
  · exact hok x (Finset.mem_of_mem_erase hx2)

lemma reachedBy_boxesOk {s0 g : SokoState} (h : ReachedBy s0 g)
    (hok : boxesOk s0.matrix s0.boxes) : boxesOk s0.matrix g.boxes := by
  induction h with
  | refl => exact hok
  | step hr hsucc ih =>
    rename_i p t
    have hm : p.matrix = s0.matrix := (reachedBy_fields hr).1
    have := succ_boxesOk hsucc (hm ▸ ih)
    exact hm ▸ this

lemma applySingleMove_walk (m : List (List Char)) (B G : Finset Pos) (cur : Pos)
    (label : Char) (d1 d2 : Int) (hdm : directionMap label = some (d1, d2))
    (c : Char) (hcell : cell m (cur.1 + d1) (cur.2 + d2) = some c) (hc : c ≠ '#')
    (hnb : ((cur.1 + d1, cur.2 + d2) : Pos) ∉ B) :
    applySingleMove (.root m cur B G) label =
      some (.root m (cur.1 + d1, cur.2 + d2) B G) := by
  unfold applySingleMove
  rw [hdm]
  simp only [SokoState.player, SokoState.matrix, SokoState.boxes]
  rw [hcell]
  simp only [if_neg hc, if_neg hnb]
  rfl

lemma walksTo_nil (m : List (List Char)) (B G : Finset Pos) (p : Pos) :
    WalksTo m B G p p [] := rfl

lemma walksTo_extend {m : List (List Char)} {B G : Finset Pos} {start cur : Pos}
    {path : List Char} (h : WalksTo m B G start cur path)
    (label : Char) (d1 d2 : Int) (hdm : directionMap label = some (d1, d2))
    (c : Char) (hcell : cell m (cur.1 + d1) (cur.2 + d2) = some c) (hc : c ≠ '#')
    (hnb : ((cur.1 + d1, cur.2 + d2) : Pos) ∉ B) :
    WalksTo m B G start (cur.1 + d1, cur.2 + d2) (path ++ [label]) := by
  unfold WalksTo at h ⊢
  rw [applyMoves_append, h]
  show applyMoves (SokoState.root m cur B G) [label] = _
  unfold applyMoves
  rw [applySingleMove_walk m B G cur label d1 d2 hdm c hcell hc hnb]
  rfl

lemma expand_step_align (m : List (List Char)) (B G : Finset Pos) (start cur : Pos)
    (path : List Char) (hcur : WalksTo m B G start cur path)
    (d : Int × Int × Char) (hd : d ∈ DIRECTIONS)
    (accP : List (Pos × List Char) × Finset Pos) (accR : List Pos × Finset Pos)
    (h1 : accR.1 = accP.1.map Prod.fst) (h2 : accR.2 = accP.2)
    (h3 : ∀ e ∈ accP.1, WalksTo m B G start e.1 e.2) :
    (expandReach m B cur accR d).1 = (expandPath m B cur path accP d).1.map Prod.fst ∧
    (expandReach m B cur accR d).2 = (expandPath m B cur path accP d).2 ∧
    ∀ e ∈ (expandPath m B cur path accP d).1, WalksTo m B G start e.1 e.2 := by
  simp only [expandReach, expandPath]
  rw [h2]
  by_cases hv : ((cur.1 + d.1, cur.2 + d.2.1) : Pos) ∈ accP.2
  · simp only [if_pos hv]
    exact ⟨h1, h2, h3⟩
  · simp only [if_neg hv]
    cases hcell : cell m (cur.1 + d.1) (cur.2 + d.2.1) with
    | none => exact ⟨h1, h2, h3⟩
    | some c =>
      by_cases hc : c = '#'
      · simp only [if_pos hc]
        exact ⟨h1, h2, h3⟩
      · simp only [if_neg hc]
        by_cases hb : ((cur.1 + d.1, cur.2 + d.2.1) : Pos) ∈ B
        · simp only [if_pos hb]
          exact ⟨h1, h2, h3⟩
        · simp only [if_neg hb]
          refine ⟨by simp [h1], by simp [h2], ?_⟩
          intro e he
          rcases List.mem_append.mp he with he1 | he2
          · exact h3 e he1
          · rcases List.mem_singleton.mp he2 with rfl
            exact walksTo_extend hcur d.2.2 d.1 d.2.1 (dirs_dirmap d hd) c hcell hc hb

lemma expand_fold_align (m : List (List Char)) (B G : Finset Pos) (start cur : Pos)
    (path : List Char) (hcur : WalksTo m B G start cur path) :
    ∀ (ds : List (Int × Int × Char)), (∀ d ∈ ds, d ∈ DIRECTIONS) →
    ∀ (accP : List (Pos × List Char) × Finset Pos) (accR : List Pos × Finset Pos),
      accR.1 = accP.1.map Prod.fst → accR.2 = accP.2 →
      (∀ e ∈ accP.1, WalksTo m B G start e.1 e.2) →
      (ds.foldl (expandReach m B cur) accR).1 =
        (ds.foldl (expandPath m B cur path) accP).1.map Prod.fst ∧
      (ds.foldl (expandReach m B cur) accR).2 =
        (ds.foldl (expandPath m B cur path) accP).2 ∧
      ∀ e ∈ (ds.foldl (expandPath m B cur path) accP).1, WalksTo m B G start e.1 e.2 := by
  intro ds
  induction ds with
  | nil =>
    intro _ accP accR h1 h2 h3
    exact ⟨h1, h2, h3⟩
  | cons d ds ih =>
    intro hds accP accR h1 h2 h3
    simp only [List.foldl_cons]
    rcases expand_step_align m B G start cur path hcur d (hds d (List.mem_cons_self d ds))
      accP accR h1 h2 h3 with ⟨g1, g2, g3⟩
    exact ih (fun x hx => hds x (List.mem_cons_of_mem d hx)) _ _ g1 g2 g3

lemma bfs_align (m : List (List Char)) (B G : Finset Pos) (start target : Pos) :
    ∀ (fuel : Nat) (queueP : List (Pos × List Char)) (visited reach : Finset Pos),
      (∀ e ∈ queueP, WalksTo m B G start e.1 e.2) →
      target ∈ bfsReachAux m B fuel (queueP.map Prod.fst) visited reach →
      target ∈ reach ∨
        WalksTo m B G start target (bfsPathAux m B target fuel queueP visited) := by
  intro fuel
  induction fuel with
  | zero =>
    intro queueP visited reach _ hmem
    exact Or.inl hmem
  | succ fuel ih =>
    intro queueP visited reach hq hmem
    cases queueP with
    | nil =>
      exact Or.inl hmem
    | cons e qP =>
      rcases e with ⟨cur, path⟩
      simp only [List.map_cons, bfsReachAux] at hmem
      by_cases hct : cur = target
      · subst hct
        right
        simp only [bfsPathAux, if_pos rfl]
        exact hq (cur, path) (List.mem_cons_self _ _)
      · rcases expand_fold_align m B G start cur path
          (hq (cur, path) (List.mem_cons_self _ _)) DIRECTIONS (fun _ hx => hx)
          (qP, visited) (qP.map Prod.fst, visited) rfl rfl
          (fun x hx => hq x (List.mem_cons_of_mem _ hx)) with ⟨g1, g2, g3⟩
        rw [g1, g2] at hmem
        rcases ih _ _ _ g3 hmem with hin | hwalk
        · rcases Finset.mem_insert.mp hin with rfl | hin2
          · exact absurd rfl hct
          · exact Or.inl hin2
        · right
          simp only [bfsPathAux, if_neg hct]
          exact hwalk

lemma findPlayerPath_walks (st : SokoState) (G : Finset Pos) (target : Pos)
    (ht : target ∈ reachablePositions st) :
    WalksTo st.matrix st.boxes G st.player target (findPlayerPath st st.player target) := by
  rw [findPlayerPath_def]
  by_cases hst : st.player = target
  · rw [if_pos hst, hst]
    exact walksTo_nil _ _ _ _
  · rw [if_neg hst]
    rw [reachablePositions_def] at ht
    have hq : ∀ e ∈ ([(st.player, [])] : List (Pos × List Char)),
        WalksTo st.matrix st.boxes G st.player e.1 e.2 := by
      intro e he
      rcases List.mem_singleton.mp he with rfl
      exact walksTo_nil _ _ _ _
    have := bfs_align st.matrix st.boxes G st.player target (2 + totalCells st.matrix)
      [(st.player, [])] {st.player} ∅ hq (by simpa using ht)
    rcases this with hin | hwalk
    · exact absurd hin (Finset.not_mem_empty target)
    · exact hwalk

lemma applySingleMove_push (m : List (List Char)) (B G : Finset Pos)
    (label : Char) (d1 d2 : Int) (hdm : directionMap label = some (d1, d2))
    (b1 b2 : Int) (hbB : ((b1, b2) : Pos) ∈ B)
    (cb : Char) (hcb : cell m b1 b2 = some cb) (hcbw : cb ≠ '#')
    (cn : Char) (hcn : cell m (b1 + d1) (b2 + d2) = some cn) (hcnw : cn ≠ '#')
    (hnbB : ((b1 + d1, b2 + d2) : Pos) ∉ B) :
    applySingleMove (.root m (b1 - d1, b2 - d2) B G) label =
      some (.root m (b1, b2) (insert (b1 + d1, b2 + d2) (B.erase (b1, b2))) G) := by
  unfold applySingleMove
  rw [hdm]
  simp only [SokoState.player, SokoState.matrix, SokoState.boxes]
  have hx : b1 - d1 + d1 = b1 := by omega
  have hy : b2 - d2 + d2 = b2 := by omega
  simp only [hx, hy]
  rw [hcb]
  simp only [if_neg hcbw, if_pos hbB]
  rw [hcn]
  simp only [if_neg hcnw, if_neg hnbB]
  rfl

lemma calcPath_eq (fromS toS : SokoState) (b nb : Pos) (label : Char) (d1 d2 : Int)
    (hmf : fromS.boxes \ toS.boxes = {b}) (hmt : toS.boxes \ fromS.boxes = {nb})
    (hdm : directionMap label = some (d1, d2)) :
    calculatePlayerPathForPush fromS toS label =
      findPlayerPath fromS fromS.player (b.1 - d1, b.2 - d2) ++ [label] := by
  simp only [calculatePlayerPathForPush]
  rw [hmf, hmt]
  rw [if_neg (by
    push_neg
    exact ⟨Finset.singleton_ne_empty b, Finset.singleton_ne_empty nb⟩)]
  rw [setToList_singleton, hdm]

lemma push_replay (p t : SokoState) (G : Finset Pos) (ht : t ∈ getSuccessorStates p)
    (hok : boxesOk p.matrix p.boxes) (a : Char) (ha : t.moveAction = some a) :
    applyMoves (.root p.matrix p.player p.boxes G) (calculatePlayerPathForPush p t a) =
      some (.root p.matrix t.player t.boxes G) := by
  rcases (mem_successors_iff p t).mp ht with ⟨b, hb, d, hd, hvalid, hreach, rfl⟩
  simp only [SokoState.moveAction, Option.some.injEq] at ha
  subst ha
  rcases (isValidBoxPosition_iff _ _ _).mp hvalid with ⟨hsome, hwall, hnbB⟩
  rcases Option.isSome_iff_exists.mp hsome with ⟨cn, hcn⟩
  have hcnw : cn ≠ '#' := fun he => hwall (he ▸ hcn)
  have hne : ((b.1 + d.1, b.2 + d.2.1) : Pos) ≠ b := by
    intro h
    have h1 : b.1 + d.1 = b.1 := congrArg Prod.fst h
    have h2 : b.2 + d.2.1 = b.2 := congrArg Prod.snd h
    exact dirs_nonzero d hd ⟨by omega, by omega⟩
  have hsd := sdiff_after_push p.boxes b _ hb hnbB hne
  have hmf : p.boxes \
      (SokoState.push p.matrix b (insert (b.1 + d.1, b.2 + d.2.1) (p.boxes.erase b))
        p.goals d.2.2 p).boxes = {b} := hsd.1
  have hmt : (SokoState.push p.matrix b (insert (b.1 + d.1, b.2 + d.2.1) (p.boxes.erase b))
        p.goals d.2.2 p).boxes \ p.boxes = {(b.1 + d.1, b.2 + d.2.1)} := hsd.2
  rw [calcPath_eq _ _ b _ d.2.2 d.1 d.2.1 hmf hmt (dirs_dirmap d hd)]
  rw [applyMoves_append]
  have hwalk := findPlayerPath_walks p G (b.1 - d.1, b.2 - d.2.1) hreach
  unfold WalksTo at hwalk
  rw [hwalk]
  rcases (isWall_false_iff _ _ _).mp (hok b hb) with ⟨cb, hcb, hcbw⟩
  have hstep := applySingleMove_push p.matrix p.boxes G d.2.2 d.1 d.2.1
    (dirs_dirmap d hd) b.1 b.2 (by simpa using hb) cb hcb hcbw cn
    (by simpa using hcn) hcnw (by simpa using hnbB)
  show applyMoves (SokoState.root p.matrix (b.1 - d.1, b.2 - d.2.1) p.boxes G) [d.2.2] = _
  unfold applyMoves
  rw [hstep]
  simp only [SokoState.player, SokoState.boxes, applyMoves]

lemma getDetailedSolution_length_pos (s : SokoState) :
    1 ≤ (getDetailedSolution s).length := by
  cases s <;> simp [getDetailedSolution]

lemma detailed_moves_push (m : List (List Char)) (pl : Pos) (B G : Finset Pos)
    (a : Char) (par : SokoState) :
    getDetailedSolutionWithPlayerMoves (.push m pl B G a par) =
      getDetailedSolutionWithPlayerMoves par ++
        calculatePlayerPathForPush par (.push m pl B G a par) a := by
  unfold getDetailedSolutionWithPlayerMoves
  rw [show getDetailedSolution (SokoState.push m pl B G a par) =
      getDetailedSolution par ++ [(some a, SokoState.push m pl B G a par)] from rfl]
  rw [List.drop_append_of_le_length (getDetailedSolution_length_pos par)]
  rw [List.foldl_append]
  rfl

/-- C2: replaying the detailed move sequence produced by
`get_detailed_solution_with_player_moves`, one single-step move at a time
via `apply_single_move` from the initial state, reproduces exactly the
player position and box set of the reported terminal state.  The initial
state is any parentless state whose boxes all stand on in-bounds, non-wall
tiles (as `create_initial_state` guarantees), and the terminal state is
anything a search loop seeded there can produce, i.e. any state reached by
a chain of `get_successor_states` pushes. -/
theorem detailed_solution_replay (m : List (List Char)) (pl : Pos) (B G : Finset Pos)
    (g : SokoState) (hok : boxesOk m B)
    (hr : ReachedBy (.root m pl B G) g) :
    applyMoves (.root m pl B G) (getDetailedSolutionWithPlayerMoves g) =
      some (.root m g.player g.boxes G) := by
  induction hr with
  | refl => rfl
  | step hr hsucc ih =>
    rename_i p t
    have hm : p.matrix = m := (reachedBy_fields hr).1
    have hpok : boxesOk p.matrix p.boxes := hm ▸ reachedBy_boxesOk hr hok
    rcases (mem_successors_iff p t).mp hsucc with ⟨b, hb, d, hd, hvalid, hreach, rfl⟩
    rw [detailed_moves_push, applyMoves_append, ih]
    have hstep := push_replay p _ G hsucc hpok d.2.2 rfl
    rw [hm] at hstep
    exact hstep

theorem detailed_solution_replay_witness :
    boxesOk demoMatrix {(2, 1)} ∧
    applyMoves (.root demoMatrix (1, 1) {(2, 1)} {(3, 1)})
        (getDetailedSolutionWithPlayerMoves demoSucc) =
      some (.root demoMatrix demoSucc.player demoSucc.boxes {(3, 1)}) :=
  ⟨by unfold boxesOk; decide, detailed_solution_replay demoMatrix (1, 1) {(2, 1)} {(3, 1)}
      demoSucc (by unfold boxesOk; decide) (ReachedBy.step (ReachedBy.refl _) (by decide))⟩
